import Mathlib

/-!
# Piece table (`jProgr/piecetable`): embedding and verified properties

The Go package keeps a document as two text buffers (`original`, `addendum`)
and an ordered sequence of pieces, each a `(start, length, buffer)` window
into one of the buffers.  This file embeds `piece.go` and `piecetable.go`
and proves properties of the public operations.

Modelling conventions.

* A Go `string` is a sequence of bytes; here it is a Lean `String` (a valid
  UTF-8 text).  `len(s)` is the *byte* length `s.utf8ByteSize`, and the
  conversion `[]rune(s)` yields the code points `s.data`.
* Go `int` is `Int`.  Every length that the package computes is bounded by
  the number of bytes held in the two buffers, so no arithmetic wraps.
* `table.pieces` is a slice of pointers to distinct `piece` cells.  It is
  modelled by the list of the cells' values; assigning through
  `affectedPiece.piece` is an update of the list at `pieceNumber`.
* A slice expression `a[lo:hi]` on a rune slice is legal up to the
  *capacity* of `a`, not its length.  The capacity of the result of
  `[]rune(s)` is chosen by the runtime, so the content of the backing array
  past the length is a parameter (`spare`) of `ToString`.  A slice
  expression out of range panics: `none`.
-/

namespace piecetable

/-! ## piece.go -/

/-- The two backing buffers (`originalType`, `addendumType`). -/
inductive bufferType where
  | originalType
  | addendumType
  deriving DecidableEq

open bufferType

/-- The `piece` struct. -/
structure piece where
  start : Int
  length : Int
  buffer : bufferType
  deriving DecidableEq

/-- Constructor `newPiece(start, length, buffer)`. -/
def newPiece (start length : Int) (buffer : bufferType) : piece :=
  { start := start, length := length, buffer := buffer }

/-- Method `piece.splitAt(length)`: the two parts of a piece cut at `length`. -/
def piece.splitAt (p : piece) (length : Int) : piece × piece :=
  let bufferType := p.buffer
  let beforePiece := newPiece p.start length bufferType
  let afterPiece := newPiece (p.start + length) (p.length - length) bufferType
  (beforePiece, afterPiece)

/-- The `relativePiece` struct: the piece found at a document offset, the
document offset `from` at which it begins, and its position in the sequence.
The field `from` is spelled `from_`. -/
structure relativePiece where
  from_ : Int
  pieceNumber : Nat
  piece : piece
  deriving DecidableEq

/-- Constructor `newRelativePiece(from, pieceNumber, piece)`. -/
def newRelativePiece (from_ : Int) (pieceNumber : Nat) (p : piece) : relativePiece :=
  { from_ := from_, pieceNumber := pieceNumber, piece := p }

/-! ## Go strings and rune slices -/

/-- Go `len(s)` on a string: the number of bytes. -/
def len (s : String) : Int := (s.utf8ByteSize : Int)

/-- A `[]rune` value: the elements within the length, and the content of the
backing array between the length and the capacity. -/
structure runeSlice where
  elems : List Char
  spare : List Char

/-- Conversion `[]rune(s)`; `spare` gives what the runtime leaves in the
backing array past the length. -/
def toRunes (spare : List Char → List Char) (s : String) : runeSlice :=
  { elems := s.data, spare := spare s.data }

/-- Slice expression `a[lo:hi]` on a rune slice: legal when
`0 ≤ lo ≤ hi ≤ cap(a)`, a panic (`none`) otherwise. -/
def sliceRunes (a : runeSlice) (lo hi : Int) : Option (List Char) :=
  if 0 ≤ lo ∧ lo ≤ hi ∧ hi ≤ ((a.elems.length + a.spare.length : Nat) : Int) then
    some (((a.elems ++ a.spare).drop lo.toNat).take (hi - lo).toNat)
  else
    none

/-! ## piecetable.go -/

/-- The `Table` struct; the `strings.Builder` addendum is the text written to
it so far. -/
structure Table where
  original : String
  addendum : String
  pieces : List piece
  deriving DecidableEq

/-- Function `merge(slices...)`: a new slice with the elements of all slices. -/
def merge {α : Type} (slices : List (List α)) : List α :=
  slices.foldl (fun mergedSlice slice => mergedSlice ++ slice) []

/-- Function `splitSlice(index, slice)`: `slice[:index], slice[index:]`. -/
def splitSlice {α : Type} (index : Nat) (slice : List α) : List α × List α :=
  (slice.take index, slice.drop index)

/-- Builtin `copy(dst, src)`: overwrites the first `min(len(dst), len(src))`
elements of `dst`; the result is the content of `dst` afterwards. -/
def copy {α : Type} (dst src : List α) : List α :=
  src.take dst.length ++ dst.drop src.length

/-- Function `isBeforePiece`. -/
def isBeforePiece (index : Int) (affectedPiece : relativePiece) : Bool :=
  index == affectedPiece.from_

/-- Function `isAfterPiece`. -/
def isAfterPiece (index : Int) (affectedPiece : relativePiece) : Bool :=
  let endIndex := affectedPiece.from_ + affectedPiece.piece.length
  index == endIndex

/-- Function `isMiddleOfPiece`. -/
def isMiddleOfPiece (index : Int) (affectedPiece : relativePiece) : Bool :=
  let endIndex := affectedPiece.from_ + affectedPiece.piece.length
  decide (index > affectedPiece.from_) && decide (index < endIndex)

/-- Function `NewTable(originalText)`. -/
def NewTable (originalText : String) : Table :=
  let pieces : List piece := []
  let pieces :=
    if len originalText ≠ 0 then pieces ++ [newPiece 0 (len originalText) originalType]
    else pieces
  { original := originalText, addendum := "", pieces := pieces }

namespace Table

/-- Method `getLengthOfAddendum`: `table.addendum.Len()`, in bytes. -/
def getLengthOfAddendum (table : Table) : Int := len table.addendum

/-- The loop of `getPieceAtIndex`, from sequence position `i` with the cursor
at `cursorPos`. -/
def getPieceAtIndexLoop (index : Int) : List piece → Int → Nat → Option relativePiece
  | [], _, _ => none
  | p :: rest, cursorPos, i =>
    let cursorPos := cursorPos + p.length
    if cursorPos > index then
      some (newRelativePiece (cursorPos - p.length) i p)
    else
      getPieceAtIndexLoop index rest cursorPos (i + 1)

/-- Method `getPieceAtIndex(index)`; `nil` is `none`. -/
def getPieceAtIndex (table : Table) (index : Int) : Option relativePiece :=
  getPieceAtIndexLoop index table.pieces 0 0

/-- Method `appendToAddendum(str)`. -/
def appendToAddendum (table : Table) (str : String) : Table :=
  { table with addendum := table.addendum ++ str }

/-- Method `newAddendumPiece(str)`. -/
def newAddendumPiece (table : Table) (str : String) : piece :=
  newPiece table.getLengthOfAddendum (len str) addendumType

/-- Method `addAddendumPiece(str)`. -/
def addAddendumPiece (table : Table) (str : String) : Table :=
  { table with pieces := table.pieces ++ [table.newAddendumPiece str] }

/-- Method `Append(str)`. -/
def Append (table : Table) (str : String) : Table :=
  (table.addAddendumPiece str).appendToAddendum str

/-- Method `Insert(str, index)`. -/
def Insert (table : Table) (str : String) (index : Int) : Table :=
  match table.getPieceAtIndex index with
  | none => table.Append str
  | some affectedPiece =>
    let addendumPiece := table.newAddendumPiece str
    let table := table.appendToAddendum str
    let newPieces : List piece := []
    let newPieces :=
      if isBeforePiece index affectedPiece then
        newPieces ++ [addendumPiece, affectedPiece.piece]
      else newPieces
    let newPieces :=
      if isAfterPiece index affectedPiece then
        newPieces ++ [affectedPiece.piece, addendumPiece]
      else newPieces
    let newPieces :=
      if isMiddleOfPiece index affectedPiece then
        let beforePieceLength := index - affectedPiece.from_
        let beforePiece :=
          newPiece affectedPiece.piece.start beforePieceLength affectedPiece.piece.buffer
        let afterPiece :=
          newPiece (affectedPiece.piece.start + beforePieceLength)
            (affectedPiece.piece.length - beforePieceLength) affectedPiece.piece.buffer
        newPieces ++ [beforePiece, addendumPiece, afterPiece]
      else newPieces
    let beforePieces := table.pieces.take affectedPiece.pieceNumber
    let afterPieces := table.pieces.drop (affectedPiece.pieceNumber + 1)
    { table with pieces := merge [beforePieces, newPieces, afterPieces] }

/-- Method `DeleteChar(index)`. -/
def DeleteChar (table : Table) (index : Int) : Table :=
  match table.getPieceAtIndex index with
  | none => table
  | some affectedPiece =>
    if affectedPiece.piece.length == 1 then
      let (beforePieces, afterPieces) := splitSlice affectedPiece.pieceNumber table.pieces
      { table with pieces := merge [beforePieces, afterPieces.drop 1] }
    else if isBeforePiece index affectedPiece then
      { table with
        pieces := table.pieces.set affectedPiece.pieceNumber
          { affectedPiece.piece with
            start := affectedPiece.piece.start + 1
            length := affectedPiece.piece.length - 1 } }
    else if isAfterPiece index affectedPiece then
      { table with
        pieces := table.pieces.set affectedPiece.pieceNumber
          { affectedPiece.piece with length := affectedPiece.piece.length - 1 } }
    else if isMiddleOfPiece index affectedPiece then
      let (beforePiece, afterPiece) :=
        affectedPiece.piece.splitAt (index - affectedPiece.from_ + 1)
      let beforePiece := { beforePiece with length := beforePiece.length - 1 }
      let (beforePieces, afterPieces) := splitSlice affectedPiece.pieceNumber table.pieces
      -- `make([]*piece, 0, len(beforePieces)+2)`: length 0
      let firstPieces : List piece := []
      let firstPieces := copy firstPieces beforePieces
      let firstPieces := firstPieces ++ [beforePiece, afterPiece]
      let afterPieces := afterPieces.drop 1
      { table with pieces := merge [firstPieces, afterPieces] }
    else
      table

/-- The loop of `Delete`: `n` more calls of `DeleteChar(startIndex)`. -/
def DeleteLoop (startIndex : Int) : Nat → Table → Table
  | 0, table => table
  | n + 1, table => DeleteLoop startIndex n (table.DeleteChar startIndex)

/-- Method `Delete(startIndex, length)`: the loop body runs for
`i = 0, ..., length - 1`, not at all when `length ≤ 0`. -/
def Delete (table : Table) (startIndex length : Int) : Table :=
  DeleteLoop startIndex length.toNat table

/-- The loop of `ToString` over the pieces, `text` being the builder. -/
def ToStringLoop (originalText addendumText : runeSlice) :
    List piece → String → Option String
  | [], text => some text
  | p :: rest, text =>
    let start := p.start
    let end_ := p.start + p.length
    let str? :=
      match p.buffer with
      | originalType => sliceRunes originalText start end_
      | addendumType => sliceRunes addendumText start end_
    match str? with
    | none => none
    | some str => ToStringLoop originalText addendumText rest (text ++ String.mk str)

/-- Method `ToString()`; `none` when a slice expression panics. -/
def ToString (spare : List Char → List Char) (table : Table) : Option String :=
  let originalText := toRunes spare table.original
  let addendumText := toRunes spare table.addendum
  ToStringLoop originalText addendumText table.pieces ""

end Table

/-! ## Vocabulary of the properties -/

/-- Text made of single-byte (ASCII) characters only. -/
def isASCII (s : String) : Bool := s.data.all (fun c => decide (c.val ≤ 127))

/-- The buffer a tag designates. -/
def Table.bufferOf (table : Table) : bufferType → String
  | originalType => table.original
  | addendumType => table.addendum

/-- A piece lies inside its buffer: `0 ≤ start`, `0 ≤ length` and
`start + length ≤ len(buffer)`. -/
def Table.inBuffer (table : Table) (p : piece) : Prop :=
  0 ≤ p.start ∧ 0 ≤ p.length ∧ p.start + p.length ≤ len (table.bufferOf p.buffer)

instance (table : Table) (p : piece) : Decidable (table.inBuffer p) := by
  unfold Table.inBuffer; infer_instance

/-- Every piece of the sequence lies inside its buffer. -/
def Table.piecesInBuffers (table : Table) : Prop :=
  ∀ p ∈ table.pieces, table.inBuffer p

instance (table : Table) : Decidable table.piecesInBuffers := by
  unfold Table.piecesInBuffers; infer_instance

/-- Both buffers hold single-byte characters only. -/
def Table.singleByte (table : Table) : Prop :=
  isASCII table.original = true ∧ isASCII table.addendum = true

instance (table : Table) : Decidable table.singleByte := by
  unfold Table.singleByte; infer_instance

/-- The document length: the sum of the lengths of the pieces. -/
def Table.documentLength (table : Table) : Int :=
  (table.pieces.map piece.length).sum

/-- The characters `[start, start+length)` of a buffer. -/
def window (buf : String) (p : piece) : List Char :=
  (buf.data.drop p.start.toNat).take p.length.toNat

/-- The characters a piece designates in the buffers `original`, `addendum`. -/
def runesOf (original addendum : String) (p : piece) : List Char :=
  match p.buffer with
  | originalType => window original p
  | addendumType => window addendum p

/-- The document as the concatenation of what the pieces designate. -/
def Table.docRunes (table : Table) : List Char :=
  (table.pieces.map (runesOf table.original table.addendum)).flatten

/-- Go `T[:n]` on a single-byte text. -/
def strTake (T : String) (n : Int) : String := String.mk (T.data.take n.toNat)

/-- Go `T[n:]` on a single-byte text. -/
def strDrop (T : String) (n : Int) : String := String.mk (T.data.drop n.toNat)

/-- A piece lies inside the buffers `original`, `addendum` (lengths in characters). -/
def fits (original addendum : String) (p : piece) : Prop :=
  0 ≤ p.start ∧ 0 ≤ p.length ∧
    p.start + p.length ≤
      (match p.buffer with
        | originalType => (original.data.length : Int)
        | addendumType => (addendum.data.length : Int))

/-- Sum of the lengths of a list of pieces. -/
def sumLengths (ps : List piece) : Int := (ps.map piece.length).sum

/-- An edit: one call of a mutating method of the public interface. -/
inductive Op where
  | append (str : String)
  | insert (str : String) (index : Int)
  | deleteChar (index : Int)
  | delete (startIndex length : Int)
  deriving DecidableEq

/-- The table after one edit. -/
def Op.apply (table : Table) : Op → Table
  | Op.append str => table.Append str
  | Op.insert str index => table.Insert str index
  | Op.deleteChar index => table.DeleteChar index
  | Op.delete startIndex length => table.Delete startIndex length

/-- The table after a sequence of edits, applied from left to right. -/
def run (table : Table) (ops : List Op) : Table := ops.foldl Op.apply table

/-- The text of the edit, if it has one, is single-byte. -/
def Op.singleByte : Op → Prop
  | Op.append str => isASCII str = true
  | Op.insert str _ => isASCII str = true
  | Op.deleteChar _ => True
  | Op.delete _ _ => True

instance (op : Op) : Decidable op.singleByte := by
  cases op <;> unfold Op.singleByte <;> infer_instance

/-- The offset of the edit, if it has one, is not negative. -/
def Op.nonneg : Op → Prop
  | Op.append _ => True
  | Op.insert _ index => 0 ≤ index
  | Op.deleteChar index => 0 ≤ index
  | Op.delete startIndex _ => 0 ≤ startIndex

instance (op : Op) : Decidable op.nonneg := by
  cases op <;> unfold Op.nonneg <;> infer_instance

/-! ## Strings and slices -/

theorem utf8Size_of_le {c : Char} (h : c.val ≤ 127) : c.utf8Size = 1 := by
  unfold Char.utf8Size
  simp only []
  rw [if_pos]
  exact h

theorem utf8Len_of_ascii (l : List Char) (h : ∀ c ∈ l, c.val ≤ 127) :
    String.utf8Len l = l.length := by
  induction l with
  | nil => rfl
  | cons c cs ih =>
    rw [String.utf8Len_cons, ih (fun d hd => h d (List.mem_cons_of_mem _ hd)),
      utf8Size_of_le (h c (List.mem_cons_self _ _)), List.length_cons]

theorem len_of_isASCII {s : String} (h : isASCII s = true) : len s = (s.data.length : Int) := by
  unfold len
  have h2 : ∀ c ∈ s.data, c.val ≤ 127 := by
    intro c hc
    have := List.all_eq_true.mp h c hc
    simpa using this
  have h3 : s.utf8ByteSize = String.utf8Len s.data := by
    cases s
    exact String.utf8ByteSize_mk _
  rw [h3, utf8Len_of_ascii _ h2]

theorem len_append (a b : String) : len (a ++ b) = len a + len b := by
  unfold len
  have h : ∀ s : String, s.utf8ByteSize = String.utf8Len s.data := by
    intro s
    cases s
    exact String.utf8ByteSize_mk _
  rw [h, h a, h b, String.data_append, String.utf8Len_append]
  push_cast
  rfl

theorem len_nonneg (s : String) : 0 ≤ len s := by
  unfold len
  exact Int.ofNat_nonneg _

theorem isASCII_append {a b : String} (ha : isASCII a = true) (hb : isASCII b = true) :
    isASCII (a ++ b) = true := by
  unfold isASCII at *
  rw [String.data_append, List.all_append, ha, hb]
  rfl

theorem take_drop_append_left {α : Type} (l r : List α) (a n : Nat) (h : a + n ≤ l.length) :
    ((l ++ r).drop a).take n = (l.drop a).take n := by
  rw [List.drop_append_of_le_length (by omega), List.take_append_of_le_length]
  rw [List.length_drop]
  omega

theorem sliceRunes_within (a : runeSlice) (lo hi : Int) (h0 : 0 ≤ lo) (h1 : lo ≤ hi)
    (h2 : hi ≤ (a.elems.length : Int)) :
    sliceRunes a lo hi = some ((a.elems.drop lo.toNat).take (hi - lo).toNat) := by
  unfold sliceRunes
  rw [if_pos]
  · rw [take_drop_append_left]
    omega
  · refine ⟨h0, h1, ?_⟩
    push_cast
    omega

theorem length_window (buf : String) (p : piece) (h0 : 0 ≤ p.start) (h1 : 0 ≤ p.length)
    (h2 : p.start + p.length ≤ (buf.data.length : Int)) :
    ((window buf p).length : Int) = p.length := by
  unfold window
  rw [List.length_take, List.length_drop]
  omega

/-! ## `ToString` on pieces that lie inside single-byte buffers -/

theorem fits_of_inBuffer {table : Table} (hs : table.singleByte) {p : piece}
    (h : table.inBuffer p) : fits table.original table.addendum p := by
  obtain ⟨h0, h1, h2⟩ := h
  refine ⟨h0, h1, ?_⟩
  cases hb : p.buffer <;> rw [hb] at h2
  · simpa [Table.bufferOf, len_of_isASCII hs.1] using h2
  · simpa [Table.bufferOf, len_of_isASCII hs.2] using h2

theorem length_runesOf {original addendum : String} {p : piece}
    (h : fits original addendum p) :
    ((runesOf original addendum p).length : Int) = p.length := by
  obtain ⟨h0, h1, h2⟩ := h
  unfold runesOf
  cases hb : p.buffer <;> rw [hb] at h2 <;> exact length_window _ _ h0 h1 h2

theorem ToStringLoop_fits (spare : List Char → List Char) (original addendum : String) :
    ∀ (ps : List piece) (text : String), (∀ p ∈ ps, fits original addendum p) →
      Table.ToStringLoop (toRunes spare original) (toRunes spare addendum) ps text =
        some (text ++ String.mk ((ps.map (runesOf original addendum)).flatten)) := by
  intro ps
  induction ps with
  | nil =>
    intro text _
    simp only [Table.ToStringLoop, List.map_nil, List.flatten_nil]
    congr 1
    apply String.ext
    simp
  | cons p rest ih =>
    intro text h
    obtain ⟨h0, h1, h2⟩ := h p (List.mem_cons_self _ _)
    have hrest : ∀ q ∈ rest, fits original addendum q :=
      fun q hq => h q (List.mem_cons_of_mem _ hq)
    unfold Table.ToStringLoop
    cases hb : p.buffer <;> rw [hb] at h2 <;> simp only []
    · rw [sliceRunes_within _ _ _ h0 (by omega) (by simpa [toRunes] using h2)]
      simp only []
      rw [ih _ hrest]
      congr 1
      apply String.ext
      simp [runesOf, hb, window, toRunes]
    · rw [sliceRunes_within _ _ _ h0 (by omega) (by simpa [toRunes] using h2)]
      simp only []
      rw [ih _ hrest]
      congr 1
      apply String.ext
      simp [runesOf, hb, window, toRunes]

/-- On a table whose pieces lie inside single-byte buffers `ToString` returns
the concatenation of the windows of the pieces. -/
theorem ToString_of_fits (spare : List Char → List Char) (table : Table)
    (h : ∀ p ∈ table.pieces, fits table.original table.addendum p) :
    table.ToString spare = some (String.mk table.docRunes) := by
  unfold Table.ToString
  simp only []
  rw [ToStringLoop_fits spare _ _ _ _ h]
  rfl

/-! ## Index resolution -/

theorem sumLengths_nil : sumLengths [] = 0 := rfl

theorem sumLengths_cons (p : piece) (ps : List piece) :
    sumLengths (p :: ps) = p.length + sumLengths ps := by
  simp [sumLengths]

theorem sumLengths_append (ps qs : List piece) :
    sumLengths (ps ++ qs) = sumLengths ps + sumLengths qs := by
  simp [sumLengths]

theorem sumLengths_nonneg (ps : List piece) (h : ∀ p ∈ ps, 0 ≤ p.length) :
    0 ≤ sumLengths ps := by
  induction ps with
  | nil => simp [sumLengths]
  | cons p rest ih =>
    rw [sumLengths_cons]
    have := h p (List.mem_cons_self _ _)
    have := ih (fun q hq => h q (List.mem_cons_of_mem _ hq))
    omega

/-- Past the end of the pieces the scan finds nothing. -/
theorem getPieceAtIndexLoop_none (index : Int) :
    ∀ (ps : List piece) (cursorPos : Int) (i : Nat), (∀ p ∈ ps, 0 ≤ p.length) →
      cursorPos + sumLengths ps ≤ index →
      Table.getPieceAtIndexLoop index ps cursorPos i = none := by
  intro ps
  induction ps with
  | nil => intros; rfl
  | cons p rest ih =>
    intro cursorPos i hnn hle
    have hp := hnn p (List.mem_cons_self _ _)
    have hrest : ∀ q ∈ rest, 0 ≤ q.length := fun q hq => hnn q (List.mem_cons_of_mem _ hq)
    have hs := sumLengths_nonneg rest hrest
    rw [sumLengths_cons] at hle
    unfold Table.getPieceAtIndexLoop
    simp only []
    rw [if_neg (by omega)]
    exact ih _ _ hrest (by omega)

/-- Inside the document the scan finds the piece that covers the offset. -/
theorem getPieceAtIndexLoop_some (index : Int) :
    ∀ (ps : List piece) (cursorPos : Int) (i : Nat), (∀ p ∈ ps, 0 ≤ p.length) →
      cursorPos ≤ index → index < cursorPos + sumLengths ps →
      ∃ (pre post : List piece) (p : piece),
        ps = pre ++ p :: post ∧
        Table.getPieceAtIndexLoop index ps cursorPos i =
          some (newRelativePiece (cursorPos + sumLengths pre) (i + pre.length) p) ∧
        cursorPos + sumLengths pre ≤ index ∧
        index < cursorPos + sumLengths pre + p.length := by
  intro ps
  induction ps with
  | nil =>
    intro cursorPos i _ h1 h2
    simp [sumLengths] at h2
    omega
  | cons p rest ih =>
    intro cursorPos i hnn h1 h2
    have hrest : ∀ q ∈ rest, 0 ≤ q.length := fun q hq => hnn q (List.mem_cons_of_mem _ hq)
    rw [sumLengths_cons] at h2
    by_cases hc : cursorPos + p.length > index
    · refine ⟨[], rest, p, rfl, ?_, ?_, ?_⟩
      · unfold Table.getPieceAtIndexLoop
        simp only []
        rw [if_pos hc]
        simp [sumLengths]
      · simpa [sumLengths] using h1
      · simpa [sumLengths] using hc
    · obtain ⟨pre, post, q, hps, hget, hlo, hhi⟩ :=
        ih (cursorPos + p.length) (i + 1) hrest (by omega) (by omega)
      refine ⟨p :: pre, post, q, by rw [hps]; rfl, ?_, ?_, ?_⟩
      · unfold Table.getPieceAtIndexLoop
        simp only []
        rw [if_neg hc, hget, sumLengths_cons, List.length_cons]
        congr 2
        · omega
        · omega
      · rw [sumLengths_cons]; omega
      · rw [sumLengths_cons]; omega

/-- Whatever the offset, a piece that the scan returns is a piece of the
sequence, at the position and document offset it reports, and ends past
the offset. -/
theorem getPieceAtIndexLoop_shape (index : Int) :
    ∀ (ps : List piece) (cursorPos : Int) (i : Nat) (r : relativePiece),
      Table.getPieceAtIndexLoop index ps cursorPos i = some r →
      ∃ (pre post : List piece),
        ps = pre ++ r.piece :: post ∧ r.pieceNumber = i + pre.length ∧
        r.from_ = cursorPos + sumLengths pre ∧ index < r.from_ + r.piece.length := by
  intro ps
  induction ps with
  | nil =>
    intro cursorPos i r h
    simp [Table.getPieceAtIndexLoop] at h
  | cons p rest ih =>
    intro cursorPos i r h
    unfold Table.getPieceAtIndexLoop at h
    simp only [] at h
    split_ifs at h with hc
    · have hr := Option.some.inj h
      subst hr
      refine ⟨[], rest, rfl, rfl, ?_, ?_⟩
      · simp [newRelativePiece, sumLengths]
      · simp only [newRelativePiece]
        omega
    · obtain ⟨pre, post, h1, h2, h3, h4⟩ := ih _ _ _ h
      refine ⟨p :: pre, post, by rw [h1]; rfl, ?_, ?_, h4⟩
      · rw [h2, List.length_cons]
        omega
      · rw [h3, sumLengths_cons]
        omega

/-! ## Windows under growth of the addendum and under splitting -/

theorem fits_append_addendum {original addendum : String} (s : String) {p : piece}
    (h : fits original addendum p) : fits original (addendum ++ s) p := by
  obtain ⟨h0, h1, h2⟩ := h
  refine ⟨h0, h1, ?_⟩
  cases hb : p.buffer <;> rw [hb] at h2 <;> simp only [] at h2 ⊢
  · exact h2
  · rw [String.data_append, List.length_append]
    push_cast
    omega

theorem runesOf_append_addendum {original addendum : String} (s : String) {p : piece}
    (h : fits original addendum p) :
    runesOf original (addendum ++ s) p = runesOf original addendum p := by
  obtain ⟨h0, h1, h2⟩ := h
  unfold runesOf
  cases hb : p.buffer
  · rfl
  · rw [hb] at h2
    simp only [] at h2 ⊢
    unfold window
    rw [String.data_append, take_drop_append_left]
    omega

theorem runesOfAll_append_addendum {original addendum : String} (s : String) :
    ∀ (ps : List piece), (∀ p ∈ ps, fits original addendum p) →
      (ps.map (runesOf original (addendum ++ s))).flatten =
        (ps.map (runesOf original addendum)).flatten := by
  intro ps h
  congr 1
  apply List.map_congr_left
  intro p hp
  exact runesOf_append_addendum s (h p hp)

theorem length_runesOfAll {original addendum : String} :
    ∀ (ps : List piece), (∀ p ∈ ps, fits original addendum p) →
      (((ps.map (runesOf original addendum)).flatten.length : Nat) : Int) = sumLengths ps := by
  intro ps
  induction ps with
  | nil => intro _; rfl
  | cons p rest ih =>
    intro h
    rw [List.map_cons, List.flatten_cons, List.length_append, sumLengths_cons]
    push_cast
    rw [ih (fun q hq => h q (List.mem_cons_of_mem _ hq)),
      length_runesOf (h p (List.mem_cons_self _ _))]

/-- The piece built for new text designates that text in the grown addendum. -/
theorem runesOf_newAddendumPiece (original addendum s : String)
    (ha : isASCII addendum = true) (hs : isASCII s = true) :
    runesOf original (addendum ++ s) (newPiece (len addendum) (len s) addendumType) = s.data := by
  rw [len_of_isASCII ha, len_of_isASCII hs]
  simp [runesOf, newPiece, window]

theorem fits_newAddendumPiece (original addendum s : String)
    (ha : isASCII addendum = true) (hs : isASCII s = true) :
    fits original (addendum ++ s) (newPiece (len addendum) (len s) addendumType) := by
  rw [len_of_isASCII ha, len_of_isASCII hs]
  refine ⟨?_, ?_, ?_⟩ <;> simp [newPiece]

theorem fits_split_before {original addendum : String} {p : piece} (d : Int)
    (h : fits original addendum p) (h0 : 0 ≤ d) (h1 : d ≤ p.length) :
    fits original addendum (newPiece p.start d p.buffer) := by
  obtain ⟨g0, g1, g2⟩ := h
  refine ⟨g0, h0, ?_⟩
  simp only [newPiece]
  cases hb : p.buffer <;> rw [hb] at g2 <;> simp only [] at g2 ⊢ <;> omega

theorem fits_split_after {original addendum : String} {p : piece} (d : Int)
    (h : fits original addendum p) (h0 : 0 ≤ d) (h1 : d ≤ p.length) :
    fits original addendum (newPiece (p.start + d) (p.length - d) p.buffer) := by
  obtain ⟨g0, g1, g2⟩ := h
  refine ⟨by simp only [newPiece]; omega, by simp only [newPiece]; omega, ?_⟩
  simp only [newPiece]
  cases hb : p.buffer <;> rw [hb] at g2 <;> simp only [] at g2 ⊢ <;> omega

theorem window_split_before (buf : String) (p : piece) (d : Int) (b : bufferType)
    (h1 : d ≤ p.length) :
    window buf (newPiece p.start d b) = (window buf p).take d.toNat := by
  unfold window
  simp only [newPiece]
  rw [List.take_take, Nat.min_eq_left]
  omega

theorem window_split_after (buf : String) (p : piece) (d : Int) (b : bufferType)
    (g0 : 0 ≤ p.start) (h0 : 0 ≤ d) :
    window buf (newPiece (p.start + d) (p.length - d) b) = (window buf p).drop d.toNat := by
  unfold window
  simp only [newPiece]
  rw [List.drop_take, List.drop_drop]
  congr 2
  · omega
  · omega

theorem runesOf_split_before {original addendum : String} (p : piece) (d : Int)
    (h1 : d ≤ p.length) :
    runesOf original addendum (newPiece p.start d p.buffer) =
      (runesOf original addendum p).take d.toNat := by
  unfold runesOf
  cases hb : p.buffer <;> simp only [newPiece] <;>
    exact window_split_before _ p d _ h1

theorem runesOf_split_after {original addendum : String} (p : piece) (d : Int)
    (g0 : 0 ≤ p.start) (h0 : 0 ≤ d) :
    runesOf original addendum (newPiece (p.start + d) (p.length - d) p.buffer) =
      (runesOf original addendum p).drop d.toNat := by
  unfold runesOf
  cases hb : p.buffer <;> simp only [newPiece] <;>
    exact window_split_after _ p d _ g0 h0

theorem merge_two {α : Type} (a b : List α) : merge [a, b] = a ++ b := by
  simp [merge]

theorem merge_three {α : Type} (a b c : List α) : merge [a, b, c] = a ++ b ++ c := by
  simp [merge]

/-! ## `Append` -/

theorem fits_of_wellFormed {table : Table} (hs : table.singleByte)
    (hin : table.piecesInBuffers) :
    ∀ p ∈ table.pieces, fits table.original table.addendum p :=
  fun p hp => fits_of_inBuffer hs (hin p hp)

theorem inBuffer_of_fits {table : Table} (hs : table.singleByte) {p : piece}
    (h : fits table.original table.addendum p) : table.inBuffer p := by
  obtain ⟨h0, h1, h2⟩ := h
  refine ⟨h0, h1, ?_⟩
  cases hb : p.buffer <;> rw [hb] at h2
  · simpa [Table.bufferOf, len_of_isASCII hs.1] using h2
  · simpa [Table.bufferOf, len_of_isASCII hs.2] using h2

theorem Append_eq (table : Table) (s : String) :
    table.Append s =
      { original := table.original, addendum := table.addendum ++ s,
        pieces := table.pieces ++ [newPiece (len table.addendum) (len s) addendumType] } := rfl

theorem Append_singleByte {table : Table} {s : String} (hs : table.singleByte)
    (ha : isASCII s = true) : (table.Append s).singleByte :=
  ⟨hs.1, isASCII_append hs.2 ha⟩

theorem Append_fits {table : Table} {s : String} (hs : table.singleByte)
    (ha : isASCII s = true)
    (h : ∀ p ∈ table.pieces, fits table.original table.addendum p) :
    ∀ p ∈ (table.Append s).pieces,
      fits (table.Append s).original (table.Append s).addendum p := by
  intro p hp
  rw [Append_eq] at hp ⊢
  simp only [List.mem_append, List.mem_singleton] at hp
  rcases hp with hp | hp
  · exact fits_append_addendum s (h p hp)
  · rw [hp]
    exact fits_newAddendumPiece _ _ _ hs.2 ha

theorem Append_docRunes {table : Table} {s : String} (hs : table.singleByte)
    (ha : isASCII s = true)
    (h : ∀ p ∈ table.pieces, fits table.original table.addendum p) :
    (table.Append s).docRunes = table.docRunes ++ s.data := by
  rw [Append_eq]
  simp only [Table.docRunes, List.map_append, List.flatten_append, List.map_cons,
    List.map_nil, List.flatten_cons, List.flatten_nil, List.append_nil]
  rw [runesOfAll_append_addendum s _ h, runesOf_newAddendumPiece _ _ _ hs.2 ha]

theorem NewTable_empty : NewTable "" = { original := "", addendum := "", pieces := [] } := by
  decide

/-! ## `Insert` -/

theorem take_length_append {α : Type} (pre : List α) (rest : List α) :
    (pre ++ rest).take pre.length = pre := by
  simp

theorem drop_length_succ_append {α : Type} (pre : List α) (p : α) (post : List α) :
    (pre ++ p :: post).drop (pre.length + 1) = post := by
  rw [List.drop_append_eq_append_drop]
  simp

/-- Outside the document `Insert` is `Append`. -/
theorem Insert_eq_Append (table : Table) (s : String) (index : Int)
    (hnn : ∀ p ∈ table.pieces, 0 ≤ p.length) (h : sumLengths table.pieces ≤ index) :
    table.Insert s index = table.Append s := by
  unfold Table.Insert Table.getPieceAtIndex
  rw [getPieceAtIndexLoop_none index _ _ _ hnn (by omega)]

/-- Inside the document `Insert` replaces the piece that covers the offset. -/
theorem Insert_eq_inside (table : Table) (s : String) (index : Int)
    (hnn : ∀ p ∈ table.pieces, 0 ≤ p.length) (h0 : 0 ≤ index)
    (h1 : index < sumLengths table.pieces) :
    ∃ (pre post : List piece) (p : piece),
      table.pieces = pre ++ p :: post ∧
      sumLengths pre ≤ index ∧ index < sumLengths pre + p.length ∧
      table.Insert s index =
        { original := table.original, addendum := table.addendum ++ s,
          pieces := pre ++
            (if index = sumLengths pre then [table.newAddendumPiece s, p]
             else [newPiece p.start (index - sumLengths pre) p.buffer,
                   table.newAddendumPiece s,
                   newPiece (p.start + (index - sumLengths pre))
                     (p.length - (index - sumLengths pre)) p.buffer]) ++ post } := by
  obtain ⟨pre, post, p, hps, hget, hlo, hhi⟩ :=
    getPieceAtIndexLoop_some index table.pieces 0 0 hnn h0 (by omega)
  simp only [Int.zero_add, Nat.zero_add] at hget hlo hhi
  refine ⟨pre, post, p, hps, hlo, hhi, ?_⟩
  unfold Table.Insert Table.getPieceAtIndex
  rw [hget]
  simp only [newRelativePiece, isBeforePiece, isAfterPiece, isMiddleOfPiece, merge_three,
    Table.appendToAddendum, Table.newAddendumPiece, Table.getLengthOfAddendum]
  have hne : (index == sumLengths pre + p.length) = false := by
    rw [beq_eq_false_iff_ne]; omega
  rw [hne, hps, take_length_append, drop_length_succ_append]
  by_cases hb : index = sumLengths pre
  · have hm : (decide (index > sumLengths pre) && decide (index < sumLengths pre + p.length))
        = false := by
      simp only [Bool.and_eq_false_imp, decide_eq_true_eq, decide_eq_false_iff_not]
      intro; omega
    rw [hm, if_pos hb]
    simp [hb]
  · have hm : (decide (index > sumLengths pre) && decide (index < sumLengths pre + p.length))
        = true := by
      simp only [Bool.and_eq_true, decide_eq_true_eq]
      omega
    have hbe : (index == sumLengths pre) = false := by
      rw [beq_eq_false_iff_ne]; exact hb
    rw [hm, if_neg hb, hbe]
    simp

theorem take_mid {α : Type} (A P B : List α) (d : Nat) (hd : d ≤ P.length) :
    (A ++ (P ++ B)).take (A.length + d) = A ++ P.take d := by
  rw [List.take_append, List.take_append_of_le_length hd]

theorem drop_mid {α : Type} (A P B : List α) (d : Nat) (hd : d ≤ P.length) :
    (A ++ (P ++ B)).drop (A.length + d) = P.drop d ++ B := by
  rw [List.drop_append, List.drop_append_of_le_length hd]

theorem docRunes_split (table : Table) (pre post : List piece) (p : piece)
    (hps : table.pieces = pre ++ p :: post) :
    table.docRunes =
      (pre.map (runesOf table.original table.addendum)).flatten ++
        (runesOf table.original table.addendum p ++
          (post.map (runesOf table.original table.addendum)).flatten) := by
  simp [Table.docRunes, hps]

/-- The pieces of `Insert` inside the document lie inside the grown buffers
and designate the old text with `s` put in at `index`. -/
theorem Insert_inside_text (table : Table) (s : String) (index : Int)
    (hs : table.singleByte) (ha : isASCII s = true)
    (h : ∀ p ∈ table.pieces, fits table.original table.addendum p)
    (h0 : 0 ≤ index) (h1 : index < sumLengths table.pieces) :
    (∀ p ∈ (table.Insert s index).pieces,
      fits (table.Insert s index).original (table.Insert s index).addendum p) ∧
    (table.Insert s index).docRunes =
      table.docRunes.take index.toNat ++ s.data ++ table.docRunes.drop index.toNat := by
  have hnn : ∀ p ∈ table.pieces, 0 ≤ p.length := fun p hp => (h p hp).2.1
  obtain ⟨pre, post, p, hps, hlo, hhi, heq⟩ := Insert_eq_inside table s index hnn h0 h1
  have hpre : ∀ q ∈ pre, fits table.original table.addendum q :=
    fun q hq => h q (by rw [hps]; exact List.mem_append_left _ hq)
  have hpost : ∀ q ∈ post, fits table.original table.addendum q :=
    fun q hq => h q (by rw [hps]; exact List.mem_append_right _ (List.mem_cons_of_mem _ hq))
  have hp : fits table.original table.addendum p :=
    h p (by rw [hps]; exact List.mem_append_right _ (List.mem_cons_self _ _))
  have hd0 : 0 ≤ index - sumLengths pre := by omega
  have hd1 : index - sumLengths pre ≤ p.length := by omega
  have hbef := fits_split_before (index - sumLengths pre) hp hd0 hd1
  have haft := fits_split_after (index - sumLengths pre) hp hd0 hd1
  have hadd := fits_newAddendumPiece table.original table.addendum s hs.2 ha
  have hlenA := length_runesOfAll pre hpre
  have hlenP := length_runesOf hp
  have hsp := sumLengths_nonneg pre (fun q hq => (hpre q hq).2.1)
  have hidx : index.toNat =
      ((pre.map (runesOf table.original table.addendum)).flatten).length +
        (index - sumLengths pre).toNat := by omega
  have hdP : (index - sumLengths pre).toNat ≤
      (runesOf table.original table.addendum p).length := by omega
  constructor
  · rw [heq]
    intro q hq
    simp only [List.mem_append] at hq
    rcases hq with (hq | hq) | hq
    · exact fits_append_addendum s (hpre q hq)
    · by_cases hb : index = sumLengths pre
      · rw [if_pos hb] at hq
        simp only [List.mem_cons, List.mem_singleton, List.not_mem_nil, or_false] at hq
        rcases hq with hq | hq
        · rw [hq]; exact hadd
        · rw [hq]; exact fits_append_addendum s hp
      · rw [if_neg hb] at hq
        simp only [List.mem_cons, List.mem_singleton, List.not_mem_nil, or_false] at hq
        rcases hq with hq | hq | hq
        · rw [hq]; exact fits_append_addendum s hbef
        · rw [hq]; exact hadd
        · rw [hq]; exact fits_append_addendum s haft
    · exact fits_append_addendum s (hpost q hq)
  · rw [docRunes_split table pre post p hps, hidx, take_mid _ _ _ _ hdP, drop_mid _ _ _ _ hdP,
      heq]
    simp only [Table.docRunes, List.map_append, List.flatten_append]
    rw [runesOfAll_append_addendum s _ hpre, runesOfAll_append_addendum s _ hpost]
    by_cases hb : index = sumLengths pre
    · rw [if_pos hb]
      have hz : (index - sumLengths pre).toNat = 0 := by omega
      rw [hz]
      simp only [List.map_cons, List.map_nil, List.flatten_cons, List.flatten_nil,
        List.append_nil, List.take_zero, List.drop_zero, List.append_assoc]
      rw [runesOf_append_addendum s hp]
      simp only [Table.newAddendumPiece, Table.getLengthOfAddendum]
      rw [runesOf_newAddendumPiece _ _ _ hs.2 ha]
    · rw [if_neg hb]
      simp only [List.map_cons, List.map_nil, List.flatten_cons, List.flatten_nil,
        List.append_nil, List.append_assoc]
      rw [runesOf_append_addendum s hbef, runesOf_append_addendum s haft,
        runesOf_split_before p _ hd1, runesOf_split_after p _ hp.1 hd0]
      simp only [Table.newAddendumPiece, Table.getLengthOfAddendum]
      rw [runesOf_newAddendumPiece _ _ _ hs.2 ha]

/-- The effect of `Insert` on the text for an offset between `0` and the
document length. -/
theorem Insert_text (table : Table) (s : String) (index : Int)
    (hs : table.singleByte) (ha : isASCII s = true)
    (h : ∀ p ∈ table.pieces, fits table.original table.addendum p)
    (h0 : 0 ≤ index) (h1 : index ≤ sumLengths table.pieces) :
    (∀ p ∈ (table.Insert s index).pieces,
      fits (table.Insert s index).original (table.Insert s index).addendum p) ∧
    (table.Insert s index).docRunes =
      table.docRunes.take index.toNat ++ s.data ++ table.docRunes.drop index.toNat := by
  rcases lt_or_ge index (sumLengths table.pieces) with hlt | hge
  · exact Insert_inside_text table s index hs ha h h0 hlt
  · have hnn : ∀ p ∈ table.pieces, 0 ≤ p.length := fun p hp => (h p hp).2.1
    rw [Insert_eq_Append table s index hnn hge]
    refine ⟨Append_fits hs ha h, ?_⟩
    rw [Append_docRunes hs ha h]
    have hlen := length_runesOfAll table.pieces h
    have hT : table.docRunes.length ≤ index.toNat := by
      unfold Table.docRunes
      omega
    rw [List.take_of_length_le hT, List.drop_of_length_le hT, List.append_nil]

/-! ## `DeleteChar` -/

/-- Outside the document `DeleteChar` changes nothing. -/
theorem DeleteChar_eq_outside (table : Table) (index : Int)
    (hnn : ∀ p ∈ table.pieces, 0 ≤ p.length) (h : sumLengths table.pieces ≤ index) :
    table.DeleteChar index = table := by
  unfold Table.DeleteChar Table.getPieceAtIndex
  rw [getPieceAtIndexLoop_none index _ _ _ hnn (by omega)]

theorem set_length_append {α : Type} (pre : List α) (p q : α) (post : List α) :
    (pre ++ p :: post).set pre.length q = pre ++ q :: post := by
  induction pre with
  | nil => rfl
  | cons a rest ih => simp [ih]

theorem drop_length_append {α : Type} (pre : List α) (rest : List α) :
    (pre ++ rest).drop pre.length = rest := by
  simp

/-- Inside the document `DeleteChar` rewrites the piece that covers the
offset; in the last case the pieces before it are not kept. -/
theorem DeleteChar_eq_inside (table : Table) (index : Int)
    (hnn : ∀ p ∈ table.pieces, 0 ≤ p.length) (h0 : 0 ≤ index)
    (h1 : index < sumLengths table.pieces) :
    ∃ (pre post : List piece) (p : piece),
      table.pieces = pre ++ p :: post ∧
      sumLengths pre ≤ index ∧ index < sumLengths pre + p.length ∧
      table.DeleteChar index =
        { original := table.original, addendum := table.addendum,
          pieces :=
            if p.length = 1 then pre ++ post
            else if index = sumLengths pre then
              pre ++ { start := p.start + 1, length := p.length - 1, buffer := p.buffer } :: post
            else
              [{ start := p.start, length := index - sumLengths pre + 1 - 1,
                 buffer := p.buffer },
               newPiece (p.start + (index - sumLengths pre + 1))
                 (p.length - (index - sumLengths pre + 1)) p.buffer] ++ post } := by
  obtain ⟨pre, post, p, hps, hget, hlo, hhi⟩ :=
    getPieceAtIndexLoop_some index table.pieces 0 0 hnn h0 (by omega)
  simp only [Int.zero_add, Nat.zero_add] at hget hlo hhi
  refine ⟨pre, post, p, hps, hlo, hhi, ?_⟩
  unfold Table.DeleteChar Table.getPieceAtIndex
  rw [hget]
  simp only [newRelativePiece, isBeforePiece, isAfterPiece, isMiddleOfPiece, merge_two,
    splitSlice, copy, piece.splitAt, newPiece]
  rw [hps, take_length_append, drop_length_append, set_length_append, set_length_append]
  by_cases hl : p.length = 1
  · have hl2 : (p.length == 1) = true := by rw [hl]; rfl
    rw [if_pos hl2, if_pos hl]
    simp
  · have hl2 : ¬ ((p.length == 1) = true) := by
      rw [beq_iff_eq]; exact hl
    rw [if_neg hl2, if_neg hl]
    by_cases hb : index = sumLengths pre
    · have hb2 : (index == sumLengths pre) = true := by rw [hb]; simp
      rw [if_pos hb2, if_pos hb]
    · have hb2 : ¬ ((index == sumLengths pre) = true) := by
        rw [beq_iff_eq]; exact hb
      have hne : ¬ ((index == sumLengths pre + p.length) = true) := by
        rw [beq_iff_eq]; omega
      have hm : (decide (index > sumLengths pre) &&
          decide (index < sumLengths pre + p.length)) = true := by
        simp only [Bool.and_eq_true, decide_eq_true_eq]
        omega
      rw [if_neg hb2, if_neg hne, if_pos hm, if_neg hb]
      simp

theorem DeleteChar_buffers (table : Table) (index : Int) :
    (table.DeleteChar index).original = table.original ∧
      (table.DeleteChar index).addendum = table.addendum := by
  unfold Table.DeleteChar
  split
  · exact ⟨rfl, rfl⟩
  · simp only [splitSlice, piece.splitAt]
    split_ifs <;> exact ⟨rfl, rfl⟩

/-- `DeleteChar`, at any offset, keeps every piece inside its buffer. -/
theorem DeleteChar_fits (table : Table) (index : Int)
    (h : ∀ p ∈ table.pieces, fits table.original table.addendum p) :
    ∀ p ∈ (table.DeleteChar index).pieces,
      fits (table.DeleteChar index).original (table.DeleteChar index).addendum p := by
  obtain ⟨hb1, hb2⟩ := DeleteChar_buffers table index
  rw [hb1, hb2]
  cases hget : table.getPieceAtIndex index with
  | none =>
    have heq : table.DeleteChar index = table := by
      unfold Table.DeleteChar
      rw [hget]
    rw [heq]
    exact h
  | some r =>
    obtain ⟨pre, post, hps, hk, hfrom, hlt⟩ := getPieceAtIndexLoop_shape index _ 0 0 r hget
    have hp : fits table.original table.addendum r.piece :=
      h _ (by rw [hps]; exact List.mem_append_right _ (List.mem_cons_self _ _))
    have hpre : ∀ q ∈ pre, fits table.original table.addendum q :=
      fun q hq => h q (by rw [hps]; exact List.mem_append_left _ hq)
    have hpost : ∀ q ∈ post, fits table.original table.addendum q :=
      fun q hq => h q (by rw [hps]; exact List.mem_append_right _ (List.mem_cons_of_mem _ hq))
    intro q hq
    unfold Table.DeleteChar at hq
    rw [hget] at hq
    simp only [splitSlice, copy, piece.splitAt, merge_two, newPiece, isBeforePiece,
      isAfterPiece, isMiddleOfPiece, beq_iff_eq, Bool.and_eq_true, decide_eq_true_eq] at hq
    rw [hps, hk, Nat.zero_add, take_length_append, drop_length_append, set_length_append,
      set_length_append] at hq
    split_ifs at hq with h1 h2 h3 h4
    · simp only [List.drop_succ_cons, List.drop_zero, List.mem_append] at hq
      rcases hq with hq | hq
      · exact hpre q hq
      · exact hpost q hq
    · simp only [List.mem_append, List.mem_cons] at hq
      rcases hq with hq | hq | hq
      · exact hpre q hq
      · rw [hq]
        exact fits_split_after 1 hp (by omega) (by omega)
      · exact hpost q hq
    · omega
    · simp only [List.drop_succ_cons, List.drop_zero, List.mem_append, List.mem_cons,
        List.take_zero, List.drop_nil, false_or, List.nil_append, List.length_nil, List.mem_singleton,
        List.not_mem_nil, or_false] at hq
      rcases hq with (hq | hq) | hq
      · rw [hq]
        exact fits_split_before (index - r.from_ + 1 - 1) hp (by omega) (by omega)
      · rw [hq]
        exact fits_split_after (index - r.from_ + 1) hp (by omega) (by omega)
      · exact hpost q hq
    · exact h q hq

/-! ## Tables built by the public operations -/

theorem NewTable_singleByte {t : String} (ht : isASCII t = true) : (NewTable t).singleByte :=
  ⟨ht, rfl⟩

theorem NewTable_pieces (t : String) :
    (NewTable t).pieces = if len t ≠ 0 then [newPiece 0 (len t) originalType] else [] := by
  unfold NewTable
  split_ifs <;> rfl

theorem NewTable_fits {t : String} (ht : isASCII t = true) :
    ∀ p ∈ (NewTable t).pieces, fits (NewTable t).original (NewTable t).addendum p := by
  intro p hp
  rw [NewTable_pieces] at hp
  have hlen := len_of_isASCII ht
  split_ifs at hp with h
  · simp only [List.mem_singleton] at hp
    rw [hp]
    refine ⟨by simp [newPiece], by simp [newPiece]; omega, ?_⟩
    simp only [newPiece, NewTable]
    omega
  · simp at hp

theorem Insert_buffers (table : Table) (s : String) (index : Int) :
    (table.Insert s index).original = table.original ∧
      (table.Insert s index).addendum = table.addendum ++ s := by
  unfold Table.Insert
  split <;> exact ⟨rfl, rfl⟩

theorem Insert_singleByte {table : Table} {s : String} (index : Int) (hs : table.singleByte)
    (ha : isASCII s = true) : (table.Insert s index).singleByte := by
  obtain ⟨h1, h2⟩ := Insert_buffers table s index
  unfold Table.singleByte
  rw [h1, h2]
  exact ⟨hs.1, isASCII_append hs.2 ha⟩

/-- `Insert`, at any offset, keeps every piece inside its buffer. -/
theorem Insert_fits (table : Table) (s : String) (index : Int)
    (hs : table.singleByte) (ha : isASCII s = true)
    (h : ∀ p ∈ table.pieces, fits table.original table.addendum p) :
    ∀ p ∈ (table.Insert s index).pieces,
      fits (table.Insert s index).original (table.Insert s index).addendum p := by
  cases hget : table.getPieceAtIndex index with
  | none =>
    have heq : table.Insert s index = table.Append s := by
      unfold Table.Insert
      rw [hget]
    rw [heq]
    exact Append_fits hs ha h
  | some r =>
    obtain ⟨pre, post, hps, hk, hfrom, hlt⟩ := getPieceAtIndexLoop_shape index _ 0 0 r hget
    have hp : fits table.original table.addendum r.piece :=
      h _ (by rw [hps]; exact List.mem_append_right _ (List.mem_cons_self _ _))
    have hpre : ∀ q ∈ pre, fits table.original table.addendum q :=
      fun q hq => h q (by rw [hps]; exact List.mem_append_left _ hq)
    have hpost : ∀ q ∈ post, fits table.original table.addendum q :=
      fun q hq => h q (by rw [hps]; exact List.mem_append_right _ (List.mem_cons_of_mem _ hq))
    have hadd := fits_newAddendumPiece table.original table.addendum s hs.2 ha
    obtain ⟨hb1, hb2⟩ := Insert_buffers table s index
    intro q hq
    rw [hb1, hb2]
    unfold Table.Insert at hq
    rw [hget] at hq
    simp only [merge_three, Table.appendToAddendum, List.mem_append] at hq
    rw [hps, hk, Nat.zero_add, take_length_append, drop_length_succ_append] at hq
    have hP := fits_append_addendum s hp
    have hB : isMiddleOfPiece index r = true →
        fits table.original (table.addendum ++ s)
          (newPiece r.piece.start (index - r.from_) r.piece.buffer) ∧
        fits table.original (table.addendum ++ s)
          (newPiece (r.piece.start + (index - r.from_)) (r.piece.length - (index - r.from_))
            r.piece.buffer) := by
      intro hm
      simp only [isMiddleOfPiece, Bool.and_eq_true, decide_eq_true_eq] at hm
      exact ⟨fits_append_addendum s (fits_split_before _ hp (by omega) (by omega)),
        fits_append_addendum s (fits_split_after _ hp (by omega) (by omega))⟩
    rcases hq with (hq | hq) | hq
    · exact fits_append_addendum s (hpre q hq)
    · simp only [Table.newAddendumPiece, Table.getLengthOfAddendum] at hq
      by_cases hm : isMiddleOfPiece index r = true
      · have hB2 := hB hm
        rw [if_pos hm] at hq
        split_ifs at hq <;>
          simp only [List.nil_append, List.mem_append, List.mem_cons, List.mem_singleton,
            List.not_mem_nil, or_false, false_or, or_assoc] at hq <;>
          casesm* _ ∨ _ <;> subst_vars <;>
          first | exact hadd | exact hP | exact hB2.1 | exact hB2.2
      · rw [if_neg hm] at hq
        split_ifs at hq <;>
          simp only [List.nil_append, List.mem_append, List.mem_cons, List.mem_singleton,
            List.not_mem_nil, or_false, false_or, or_assoc] at hq <;>
          casesm* _ ∨ _ <;> subst_vars <;>
          first | exact hadd | exact hP
    · exact fits_append_addendum s (hpost q hq)

theorem DeleteChar_singleByte {table : Table} (index : Int) (hs : table.singleByte) :
    (table.DeleteChar index).singleByte := by
  obtain ⟨h1, h2⟩ := DeleteChar_buffers table index
  unfold Table.singleByte
  rw [h1, h2]
  exact hs

theorem DeleteLoop_wellFormed (startIndex : Int) :
    ∀ (n : Nat) (table : Table), table.singleByte →
      (∀ p ∈ table.pieces, fits table.original table.addendum p) →
      (Table.DeleteLoop startIndex n table).singleByte ∧
        ∀ p ∈ (Table.DeleteLoop startIndex n table).pieces,
          fits (Table.DeleteLoop startIndex n table).original
            (Table.DeleteLoop startIndex n table).addendum p := by
  intro n
  induction n with
  | zero => intro table hs h; exact ⟨hs, h⟩
  | succ n ih =>
    intro table hs h
    unfold Table.DeleteLoop
    exact ih _ (DeleteChar_singleByte startIndex hs) (DeleteChar_fits table startIndex h)

theorem apply_wellFormed (table : Table) (op : Op) (hop : op.singleByte)
    (hs : table.singleByte) (h : ∀ p ∈ table.pieces, fits table.original table.addendum p) :
    (Op.apply table op).singleByte ∧
      ∀ p ∈ (Op.apply table op).pieces,
        fits (Op.apply table op).original (Op.apply table op).addendum p := by
  cases op with
  | append str => exact ⟨Append_singleByte hs hop, Append_fits hs hop h⟩
  | insert str index =>
    exact ⟨Insert_singleByte index hs hop, Insert_fits table str index hs hop h⟩
  | deleteChar index =>
    exact ⟨DeleteChar_singleByte index hs, DeleteChar_fits table index h⟩
  | delete startIndex length =>
    exact DeleteLoop_wellFormed startIndex _ table hs h

theorem run_wellFormed :
    ∀ (ops : List Op) (table : Table), (∀ op ∈ ops, op.singleByte) →
      table.singleByte → (∀ p ∈ table.pieces, fits table.original table.addendum p) →
      (run table ops).singleByte ∧
        ∀ p ∈ (run table ops).pieces,
          fits (run table ops).original (run table ops).addendum p := by
  intro ops
  induction ops with
  | nil => intro table _ hs h; exact ⟨hs, h⟩
  | cons op rest ih =>
    intro table hops hs h
    obtain ⟨hs2, h2⟩ := apply_wellFormed table op (hops op (List.mem_cons_self _ _)) hs h
    exact ih (Op.apply table op) (fun o ho => hops o (List.mem_cons_of_mem _ ho)) hs2 h2

/-! ## Piece lengths are never negative -/

theorem Append_lengths_nonneg (table : Table) (s : String)
    (h : ∀ p ∈ table.pieces, 0 ≤ p.length) :
    ∀ p ∈ (table.Append s).pieces, 0 ≤ p.length := by
  intro p hp
  rw [Append_eq] at hp
  simp only [List.mem_append, List.mem_singleton] at hp
  rcases hp with hp | hp
  · exact h p hp
  · rw [hp]
    exact len_nonneg s

theorem Insert_lengths_nonneg (table : Table) (s : String) (index : Int)
    (h : ∀ p ∈ table.pieces, 0 ≤ p.length) :
    ∀ p ∈ (table.Insert s index).pieces, 0 ≤ p.length := by
  cases hget : table.getPieceAtIndex index with
  | none =>
    have heq : table.Insert s index = table.Append s := by
      unfold Table.Insert
      rw [hget]
    rw [heq]
    exact Append_lengths_nonneg table s h
  | some r =>
    obtain ⟨pre, post, hps, hk, hfrom, hlt⟩ := getPieceAtIndexLoop_shape index _ 0 0 r hget
    have hp : 0 ≤ r.piece.length :=
      h _ (by rw [hps]; exact List.mem_append_right _ (List.mem_cons_self _ _))
    have hpre : ∀ q ∈ pre, 0 ≤ q.length :=
      fun q hq => h q (by rw [hps]; exact List.mem_append_left _ hq)
    have hpost : ∀ q ∈ post, 0 ≤ q.length :=
      fun q hq => h q (by rw [hps]; exact List.mem_append_right _ (List.mem_cons_of_mem _ hq))
    have hadd : 0 ≤ (table.newAddendumPiece s).length := len_nonneg s
    intro q hq
    unfold Table.Insert at hq
    rw [hget] at hq
    simp only [merge_three, Table.appendToAddendum, List.mem_append] at hq
    rw [hps, hk, Nat.zero_add, take_length_append, drop_length_succ_append] at hq
    rcases hq with (hq | hq) | hq
    · exact hpre q hq
    · by_cases hm : isMiddleOfPiece index r = true
      · have hm2 := hm
        simp only [isMiddleOfPiece, Bool.and_eq_true, decide_eq_true_eq] at hm2
        have hB1 : 0 ≤ (newPiece r.piece.start (index - r.from_) r.piece.buffer).length := by
          simp only [newPiece]; omega
        have hB2 : 0 ≤ (newPiece (r.piece.start + (index - r.from_))
            (r.piece.length - (index - r.from_)) r.piece.buffer).length := by
          simp only [newPiece]; omega
        rw [if_pos hm] at hq
        split_ifs at hq <;>
          simp only [List.nil_append, List.mem_append, List.mem_cons, List.mem_singleton,
            List.not_mem_nil, or_false, false_or, or_assoc] at hq <;>
          casesm* _ ∨ _ <;> subst_vars <;>
          first | exact hadd | exact hp | exact hB1 | exact hB2
      · rw [if_neg hm] at hq
        split_ifs at hq <;>
          simp only [List.nil_append, List.mem_append, List.mem_cons, List.mem_singleton,
            List.not_mem_nil, or_false, false_or, or_assoc] at hq <;>
          casesm* _ ∨ _ <;> subst_vars <;>
          first | exact hadd | exact hp
    · exact hpost q hq

theorem DeleteChar_lengths_nonneg (table : Table) (index : Int)
    (h : ∀ p ∈ table.pieces, 0 ≤ p.length) :
    ∀ p ∈ (table.DeleteChar index).pieces, 0 ≤ p.length := by
  cases hget : table.getPieceAtIndex index with
  | none =>
    have heq : table.DeleteChar index = table := by
      unfold Table.DeleteChar
      rw [hget]
    rw [heq]
    exact h
  | some r =>
    obtain ⟨pre, post, hps, hk, hfrom, hlt⟩ := getPieceAtIndexLoop_shape index _ 0 0 r hget
    have hpre : ∀ q ∈ pre, 0 ≤ q.length :=
      fun q hq => h q (by rw [hps]; exact List.mem_append_left _ hq)
    have hpost : ∀ q ∈ post, 0 ≤ q.length :=
      fun q hq => h q (by rw [hps]; exact List.mem_append_right _ (List.mem_cons_of_mem _ hq))
    intro q hq
    unfold Table.DeleteChar at hq
    rw [hget] at hq
    simp only [splitSlice, copy, piece.splitAt, merge_two, newPiece, isBeforePiece,
      isAfterPiece, isMiddleOfPiece, beq_iff_eq, Bool.and_eq_true, decide_eq_true_eq] at hq
    rw [hps, hk, Nat.zero_add, take_length_append, drop_length_append, set_length_append,
      set_length_append] at hq
    split_ifs at hq with h1 h2 h3 h4
    · simp only [List.drop_succ_cons, List.drop_zero, List.mem_append] at hq
      rcases hq with hq | hq
      · exact hpre q hq
      · exact hpost q hq
    · simp only [List.mem_append, List.mem_cons] at hq
      rcases hq with hq | hq | hq
      · exact hpre q hq
      · rw [hq]
        simp only []
        omega
      · exact hpost q hq
    · omega
    · simp only [List.drop_succ_cons, List.drop_zero, List.mem_append, List.mem_cons,
        List.take_zero, List.drop_nil, false_or, List.nil_append, List.length_nil,
        List.mem_singleton, List.not_mem_nil, or_false] at hq
      rcases hq with (hq | hq) | hq
      · rw [hq]
        simp only []
        omega
      · rw [hq]
        simp only []
        omega
      · exact hpost q hq
    · exact h q hq

theorem DeleteLoop_lengths_nonneg (startIndex : Int) :
    ∀ (n : Nat) (table : Table), (∀ p ∈ table.pieces, 0 ≤ p.length) →
      ∀ p ∈ (Table.DeleteLoop startIndex n table).pieces, 0 ≤ p.length := by
  intro n
  induction n with
  | zero => intro table h; exact h
  | succ n ih =>
    intro table h
    unfold Table.DeleteLoop
    exact ih _ (DeleteChar_lengths_nonneg table startIndex h)

theorem NewTable_lengths_nonneg (t : String) : ∀ p ∈ (NewTable t).pieces, 0 ≤ p.length := by
  intro p hp
  rw [NewTable_pieces] at hp
  split_ifs at hp
  · simp only [List.mem_singleton] at hp
    rw [hp]
    exact len_nonneg t
  · simp at hp

/-- Every table built from `NewTable` by the public operations, whatever
their arguments, has pieces of non-negative length. -/
theorem run_lengths_nonneg :
    ∀ (ops : List Op) (table : Table), (∀ p ∈ table.pieces, 0 ≤ p.length) →
      ∀ p ∈ (run table ops).pieces, 0 ≤ p.length := by
  intro ops
  induction ops with
  | nil => intro table h; exact h
  | cons op rest ih =>
    intro table h
    refine ih (Op.apply table op) ?_
    cases op with
    | append str => exact Append_lengths_nonneg table str h
    | insert str index => exact Insert_lengths_nonneg table str index h
    | deleteChar index => exact DeleteChar_lengths_nonneg table index h
    | delete startIndex length => exact DeleteLoop_lengths_nonneg startIndex _ table h

/-! ## The properties of the specification -/

/-- C1 (fails on the code for multi-byte text): `NewTable("é")` records one
piece of length 2, the byte length, while `ToString` slices the decoded
runes, of which there is one; whatever the capacity of the rune slice, the
result is not `"é"`. -/
theorem NewTable_ToString_multibyte :
    (NewTable "é").pieces = [newPiece 0 2 originalType] ∧
      ∀ spare : List Char → List Char, (NewTable "é").ToString spare ≠ some "é" := by
  have hp : NewTable "é" =
      { original := "é", addendum := "", pieces := [newPiece 0 2 originalType] } := by decide
  refine ⟨by rw [hp], ?_⟩
  intro spare
  rw [hp]
  simp only [Table.ToString, Table.ToStringLoop, toRunes, newPiece, sliceRunes]
  split_ifs with h
  · intro hcontra
    have := congrArg (Option.map String.length) hcontra
    simp [String.length] at this
    rw [this] at h
    simp at h
  · simp

/-- C2: on a table whose pieces lie inside their single-byte buffers, for
single-byte `s`, `ToString()` returns some `T`, and for every `index` with
`0 ≤ index ≤ len(T)` the text after `Insert(s, index)` is
`T[:index] ++ s ++ T[index:]`.  Every table reached from `NewTable(t)` by
`Append`, `Insert`, `DeleteChar` and `Delete` calls over single-byte text, at
any offsets, is such a table. -/
theorem Insert_ToString (spare : List Char → List Char) (table : Table) (s : String)
    (hin : table.piecesInBuffers) (hsb : table.singleByte) (hs : isASCII s = true) :
    (∃ T : String, table.ToString spare = some T ∧
      ∀ index : Int, 0 ≤ index → index ≤ (T.length : Int) →
        (table.Insert s index).ToString spare =
          some (strTake T index ++ s ++ strDrop T index)) ∧
    ∀ (t : String) (ops : List Op), isASCII t = true → (∀ op ∈ ops, op.singleByte) →
      (run (NewTable t) ops).piecesInBuffers ∧ (run (NewTable t) ops).singleByte := by
  constructor
  · have hfit := fits_of_wellFormed hsb hin
    refine ⟨String.mk table.docRunes, ToString_of_fits spare table hfit, ?_⟩
    intro index h0 h1
    have hlen := length_runesOfAll table.pieces hfit
    have h1' : index ≤ sumLengths table.pieces := by
      rw [← hlen]
      exact h1
    obtain ⟨hfit2, htext⟩ := Insert_text table s index hsb hs hfit h0 h1'
    rw [ToString_of_fits spare _ hfit2, htext]
    rfl
  · intro t ops ht hops
    obtain ⟨hsb2, hfit2⟩ :=
      run_wellFormed ops (NewTable t) hops (NewTable_singleByte ht) (NewTable_fits ht)
    exact ⟨fun p hp => inBuffer_of_fits hsb2 (hfit2 p hp), hsb2⟩

/-- C2, at the interior insertion of the test suite. -/
theorem Insert_ToString_witness :
    ((NewTable "abc def").Insert "xyz " 4).ToString (fun _ => []) = some "abc xyz def" := by
  obtain ⟨⟨T, hT, h⟩, -⟩ := Insert_ToString (fun _ => []) (NewTable "abc def") "xyz "
    (by decide) (by decide) (by decide)
  have hT2 : (NewTable "abc def").ToString (fun _ => []) = some "abc def" := by decide
  rw [hT2] at hT
  have hT3 : T = "abc def" := (Option.some.inj hT).symm
  subst hT3
  exact h 4 (by decide) (by decide)

/-- C3: on a table whose pieces lie inside their single-byte buffers, for
single-byte `s`, `ToString()` returns some `T` and the text after `Append(s)`
is `T ++ s`; and `NewTable("").Append(a).Append(b).ToString()` is `a ++ b`
for single-byte `a`, `b`. -/
theorem Append_ToString (spare : List Char → List Char) (table : Table) (s a b : String)
    (hin : table.piecesInBuffers) (hsb : table.singleByte) (hs : isASCII s = true)
    (ha : isASCII a = true) (hb : isASCII b = true) :
    (∃ T : String, table.ToString spare = some T ∧
        (table.Append s).ToString spare = some (T ++ s)) ∧
      (((NewTable "").Append a).Append b).ToString spare = some (a ++ b) := by
  have key : ∀ (tb : Table) (x : String), tb.singleByte → isASCII x = true →
      (∀ p ∈ tb.pieces, fits tb.original tb.addendum p) →
      (tb.Append x).ToString spare = some (String.mk tb.docRunes ++ x) := by
    intro tb x h1 h2 h3
    rw [ToString_of_fits spare _ (Append_fits h1 h2 h3), Append_docRunes h1 h2 h3]
    rfl
  have hfit := fits_of_wellFormed hsb hin
  refine ⟨⟨String.mk table.docRunes, ToString_of_fits spare table hfit, key table s hsb hs hfit⟩,
    ?_⟩
  have h0s : (NewTable "").singleByte := NewTable_singleByte (by decide)
  have h0f := NewTable_fits (t := "") (by decide)
  rw [key _ b (Append_singleByte h0s ha) hb (Append_fits h0s ha h0f),
    Append_docRunes h0s ha h0f]
  congr 1

/-- C3, at the append of the test suite and at `"a"`, `"b"`. -/
theorem Append_ToString_witness :
    (∃ T : String, (NewTable "").ToString (fun _ => []) = some T ∧
        ((NewTable "").Append "abc").ToString (fun _ => []) = some (T ++ "abc")) ∧
      (((NewTable "").Append "a").Append "b").ToString (fun _ => []) = some ("a" ++ "b") :=
  Append_ToString (fun _ => []) (NewTable "") "abc" "a" "b"
    (by decide) (by decide) (by decide) (by decide) (by decide)

/-- C4 (fails on the code): deleting an interior character of a piece that
is not the first of the sequence loses every piece before it:
`NewTable("abc").Append("def").DeleteChar(4)` keeps the pieces `"d"`, `"f"`
only and reads `"df"`, not `"abcdf"`. -/
theorem DeleteChar_interior_loses_earlier_pieces :
    (((NewTable "abc").Append "def").DeleteChar 4).pieces =
        [newPiece 0 1 addendumType, newPiece 2 1 addendumType] ∧
      (((NewTable "abc").Append "def").DeleteChar 4).ToString (fun _ => []) = some "df" := by
  decide

/-- C5: for single-byte `t` and `0 ≤ index < len(t)` (so `t` is not empty),
`NewTable(t).DeleteChar(index).ToString()` is `t` without the character at
`index`, that is `t[:index] ++ t[index+1:]`. -/
theorem NewTable_DeleteChar_ToString (spare : List Char → List Char) (t : String)
    (index : Int) (ht : isASCII t = true) (h0 : 0 ≤ index) (h1 : index < len t) :
    ((NewTable t).DeleteChar index).ToString spare =
      some (strTake t index ++ strDrop t (index + 1)) := by
  have hfit := NewTable_fits ht
  have hlen := len_of_isASCII ht
  have hne : len t ≠ 0 := by omega
  have hpieces : (NewTable t).pieces = [newPiece 0 (len t) originalType] := by
    rw [NewTable_pieces, if_pos hne]
  have hsum : sumLengths (NewTable t).pieces = len t := by
    rw [hpieces]
    simp [sumLengths, newPiece]
  obtain ⟨pre, post, p, hps, -, -, heq⟩ :=
    DeleteChar_eq_inside (NewTable t) index (fun p hp => (hfit p hp).2.1) h0 (by omega)
  rw [hpieces] at hps
  have hshape : pre = [] ∧ p = newPiece 0 (len t) originalType ∧ post = [] := by
    cases pre with
    | nil =>
      simp only [List.nil_append, List.cons.injEq] at hps
      exact ⟨rfl, hps.1.symm, hps.2.symm⟩
    | cons a rest =>
      simp only [List.cons_append, List.cons.injEq] at hps
      have := congrArg List.length hps.2
      simp at this
      omega
  obtain ⟨hpre, hp, hpost⟩ := hshape
  subst hpre hp hpost
  rw [ToString_of_fits spare _ (DeleteChar_fits _ index hfit), heq]
  congr 1
  apply String.ext
  simp only [Table.docRunes, newPiece, sumLengths_nil, strTake, strDrop, String.data_append,
    List.nil_append, List.append_nil, NewTable]
  have hn : (len t).toNat = t.data.length := by omega
  by_cases hl : len t = 1
  · have hi : index.toNat = 0 := by omega
    have hi1 : (index + 1).toNat = 1 := by omega
    have hd : t.data.drop 1 = [] := List.drop_of_length_le (by omega)
    rw [if_pos hl, hi, hi1, hd]
    rfl
  · rw [if_neg hl]
    by_cases hb : index = 0
    · rw [if_pos hb, hb]
      simp only [List.map_cons, List.map_nil, List.flatten_cons, List.flatten_nil,
        List.append_nil, runesOf, window]
      have e1 : (0 + 1 : Int).toNat = 1 := rfl
      have e2 : (0 : Int).toNat = 0 := rfl
      rw [e1, e2, List.take_zero, List.nil_append]
      exact List.take_of_length_le (by rw [List.length_drop]; omega)
    · rw [if_neg hb]
      simp only [List.map_cons, List.map_nil, List.flatten_cons, List.flatten_nil,
        List.append_nil, runesOf, window]
      have e1 : (0 : Int).toNat = 0 := rfl
      have e2 : (index - 0 + 1 - 1).toNat = index.toNat := by congr 1; omega
      have e3 : (0 + (index - 0 + 1)).toNat = (index + 1).toNat := by congr 1; omega
      rw [e1, e2, e3, List.drop_zero]
      congr 1
      exact List.take_of_length_le (by rw [List.length_drop]; omega)

/-- C5, at the deletions of the test suite: first, last and middle character
of `"abc"`. -/
theorem NewTable_DeleteChar_ToString_witness :
    ((NewTable "abc").DeleteChar 0).ToString (fun _ => []) = some "bc" ∧
      ((NewTable "abc").DeleteChar 2).ToString (fun _ => []) = some "ab" ∧
      ((NewTable "abc").DeleteChar 1).ToString (fun _ => []) = some "ac" :=
  ⟨NewTable_DeleteChar_ToString (fun _ => []) "abc" 0 (by decide) (by decide) (by decide),
    NewTable_DeleteChar_ToString (fun _ => []) "abc" 2 (by decide) (by decide) (by decide),
    NewTable_DeleteChar_ToString (fun _ => []) "abc" 1 (by decide) (by decide) (by decide)⟩

/-- C6 (fails on the code): `Delete` repeats `DeleteChar`, which loses the
pieces before the affected one when it deletes an interior character:
`NewTable("abc").Append("def").Delete(4, 1)` reads `"df"`, not `"abcdf"`. -/
theorem Delete_loses_earlier_pieces :
    (((NewTable "abc").Append "def").Delete 4 1).ToString (fun _ => []) = some "df" ∧
      ((NewTable "abc").Append "def").ToString (fun _ => []) = some "abcdef" := by
  decide

/-- C7: on a table whose pieces have non-negative length, for every `index`
at or past the document length (the sum of the piece lengths),
`Insert(s, index)` yields the very table that `Append(s)` yields: same piece
sequence, same original buffer, same addendum buffer.  Every table built
from `NewTable(t)` by the public operations, whatever their arguments, has
pieces of non-negative length. -/
theorem Insert_past_end_eq_Append (table : Table) (s : String) (index : Int)
    (hnn : ∀ p ∈ table.pieces, 0 ≤ p.length) (h : table.documentLength ≤ index) :
    (table.Insert s index = table.Append s ∧
      (table.Insert s index).pieces = (table.Append s).pieces ∧
      (table.Insert s index).original = (table.Append s).original ∧
      (table.Insert s index).addendum = (table.Append s).addendum) ∧
    ∀ (t : String) (ops : List Op), ∀ p ∈ (run (NewTable t) ops).pieces, 0 ≤ p.length := by
  have heq := Insert_eq_Append table s index hnn h
  rw [heq]
  exact ⟨⟨rfl, rfl, rfl, rfl⟩,
    fun t ops => run_lengths_nonneg ops (NewTable t) (NewTable_lengths_nonneg t)⟩

/-- C7, at the insertion at the end of the test suite. -/
theorem Insert_past_end_eq_Append_witness :
    (NewTable "abc").Insert " xyz" 3 = (NewTable "abc").Append " xyz" :=
  (Insert_past_end_eq_Append (NewTable "abc") " xyz" 3 (by decide) (by decide)).1.1

/-- C8: on a table whose pieces have non-negative length, for every `index`
at or past the document length, `DeleteChar(index)` leaves the piece
sequence and both buffers as they are, and with them the result of
`ToString()`.  Every table built from `NewTable(t)` by the public
operations, whatever their arguments, has pieces of non-negative length. -/
theorem DeleteChar_past_end_noop (table : Table) (index : Int)
    (hnn : ∀ p ∈ table.pieces, 0 ≤ p.length) (h : table.documentLength ≤ index) :
    ((table.DeleteChar index).pieces = table.pieces ∧
      (table.DeleteChar index).original = table.original ∧
      (table.DeleteChar index).addendum = table.addendum ∧
      ∀ spare : List Char → List Char,
        (table.DeleteChar index).ToString spare = table.ToString spare) ∧
    ∀ (t : String) (ops : List Op), ∀ p ∈ (run (NewTable t) ops).pieces, 0 ≤ p.length := by
  have heq := DeleteChar_eq_outside table index hnn h
  rw [heq]
  exact ⟨⟨rfl, rfl, rfl, fun _ => rfl⟩,
    fun t ops => run_lengths_nonneg ops (NewTable t) (NewTable_lengths_nonneg t)⟩

/-- C8, at the out-of-range deletion of the test suite. -/
theorem DeleteChar_past_end_noop_witness :
    ((NewTable "abc").DeleteChar 100).pieces = (NewTable "abc").pieces ∧
      ((NewTable "abc").DeleteChar 100).original = "abc" ∧
      ((NewTable "abc").DeleteChar 100).addendum = "" ∧
      ∀ spare : List Char → List Char,
        ((NewTable "abc").DeleteChar 100).ToString spare = (NewTable "abc").ToString spare :=
  (DeleteChar_past_end_noop (NewTable "abc") 100 (by decide) (by decide)).1

/-- C9 (fails on the code): deleting the last character of a piece of length
at least 2 goes through the interior branch, whose after-part is empty and
is kept: `NewTable("abc").DeleteChar(2)` has the pieces `(0, 2)` and
`(3, 0)`, the second of length 0. -/
theorem DeleteChar_last_keeps_empty_piece :
    ((NewTable "abc").DeleteChar 2).pieces =
        [newPiece 0 2 originalType, newPiece 3 0 originalType] ∧
      ∃ p ∈ (run (NewTable "abc") [Op.deleteChar 2]).pieces, p.length ≤ 0 := by
  decide

/-- C10: after any sequence of `Append`, `Insert`, `DeleteChar` and `Delete`
calls over single-byte text with non-negative offsets, starting from
`NewTable(t)`, `ToString()` returns some `T`, and the sum of the lengths of
the pieces is the number of characters of `T`. -/
theorem run_documentLength_eq_length (spare : List Char → List Char) (t : String)
    (ops : List Op) (ht : isASCII t = true) (hops : ∀ op ∈ ops, op.singleByte ∧ op.nonneg) :
    ∃ T : String, (run (NewTable t) ops).ToString spare = some T ∧
      (run (NewTable t) ops).documentLength = (T.length : Int) := by
  obtain ⟨-, hfit⟩ := run_wellFormed ops (NewTable t) (fun op hop => (hops op hop).1)
    (NewTable_singleByte ht) (NewTable_fits ht)
  refine ⟨String.mk (run (NewTable t) ops).docRunes, ToString_of_fits spare _ hfit, ?_⟩
  have := length_runesOfAll _ hfit
  simp only [Table.documentLength, String.length, Table.docRunes]
  rw [this]
  rfl

/-- C10, at the range deletion of the test suite. -/
theorem run_documentLength_eq_length_witness :
    ∃ T : String,
      (run (NewTable "abc") [Op.insert " xyz" 3, Op.delete 1 5]).ToString (fun _ => []) =
        some T ∧
      (run (NewTable "abc") [Op.insert " xyz" 3, Op.delete 1 5]).documentLength =
        (T.length : Int) :=
  run_documentLength_eq_length (fun _ => []) "abc" [Op.insert " xyz" 3, Op.delete 1 5]
    (by decide) (by decide)

/-! ## What `DeleteChar` and `Insert` do to the piece that the scan returns -/

theorem DeleteLoop_buffers (startIndex : Int) :
    ∀ (n : Nat) (table : Table),
      (Table.DeleteLoop startIndex n table).original = table.original ∧
        (Table.DeleteLoop startIndex n table).addendum = table.addendum := by
  intro n
  induction n with
  | zero => intro table; exact ⟨rfl, rfl⟩
  | succ n ih =>
    intro table
    unfold Table.DeleteLoop
    obtain ⟨h1, h2⟩ := ih (table.DeleteChar startIndex)
    obtain ⟨g1, g2⟩ := DeleteChar_buffers table startIndex
    exact ⟨h1.trans g1, h2.trans g2⟩

/-- With non-negative lengths and a non-negative offset, the piece that the
scan returns begins at or before the offset. -/
theorem getPieceAtIndex_from_le (table : Table) (index : Int) (r : relativePiece)
    (hnn : ∀ p ∈ table.pieces, 0 ≤ p.length) (h0 : 0 ≤ index)
    (hget : table.getPieceAtIndex index = some r) : r.from_ ≤ index := by
  obtain ⟨pre, post, hps, -, hfrom, hlt⟩ := getPieceAtIndexLoop_shape index _ 0 0 r hget
  have hpost : 0 ≤ sumLengths post := sumLengths_nonneg post
    (fun q hq => hnn q (by rw [hps]; exact List.mem_append_right _ (List.mem_cons_of_mem _ hq)))
  have htot : index < 0 + sumLengths table.pieces := by
    rw [hps, sumLengths_append, sumLengths_cons]
    omega
  obtain ⟨pre2, post2, p2, -, hget2, hlo, -⟩ :=
    getPieceAtIndexLoop_some index table.pieces 0 0 hnn h0 htot
  unfold Table.getPieceAtIndex at hget
  rw [hget2] at hget
  have hr := Option.some.inj hget
  rw [← hr]
  exact hlo

/-- The pieces after `DeleteChar`, in terms of the piece that the scan returns. -/
theorem DeleteChar_pieces_of_get (table : Table) (index : Int) (r : relativePiece)
    (pre post : List piece) (hget : table.getPieceAtIndex index = some r)
    (hps : table.pieces = pre ++ r.piece :: post) (hk : r.pieceNumber = pre.length) :
    (table.DeleteChar index).pieces =
      if r.piece.length = 1 then pre ++ post
      else if index = r.from_ then
        pre ++ { start := r.piece.start + 1, length := r.piece.length - 1,
                 buffer := r.piece.buffer } :: post
      else if index = r.from_ + r.piece.length then
        pre ++ { start := r.piece.start, length := r.piece.length - 1,
                 buffer := r.piece.buffer } :: post
      else if index > r.from_ ∧ index < r.from_ + r.piece.length then
        [{ start := r.piece.start, length := index - r.from_ + 1 - 1,
           buffer := r.piece.buffer },
         { start := r.piece.start + (index - r.from_ + 1),
           length := r.piece.length - (index - r.from_ + 1), buffer := r.piece.buffer }] ++ post
      else pre ++ r.piece :: post := by
  unfold Table.DeleteChar
  rw [hget]
  simp only [splitSlice, copy, piece.splitAt, merge_two, newPiece, isBeforePiece,
    isAfterPiece, isMiddleOfPiece, beq_iff_eq, Bool.and_eq_true, decide_eq_true_eq]
  rw [hps, hk, take_length_append, drop_length_append, set_length_append, set_length_append]
  split_ifs <;> first | rfl | exact hps | simp

/-- The pieces after `Insert`, in terms of the piece that the scan returns. -/
theorem Insert_pieces_of_get (table : Table) (s : String) (index : Int) (r : relativePiece)
    (pre post : List piece) (hget : table.getPieceAtIndex index = some r)
    (hps : table.pieces = pre ++ r.piece :: post) (hk : r.pieceNumber = pre.length) :
    (table.Insert s index).pieces =
      pre ++
        ((if index = r.from_ then [table.newAddendumPiece s, r.piece] else []) ++
         (if index = r.from_ + r.piece.length then [r.piece, table.newAddendumPiece s] else []) ++
         (if index > r.from_ ∧ index < r.from_ + r.piece.length then
            [newPiece r.piece.start (index - r.from_) r.piece.buffer,
             table.newAddendumPiece s,
             newPiece (r.piece.start + (index - r.from_))
               (r.piece.length - (index - r.from_)) r.piece.buffer]
          else [])) ++ post := by
  unfold Table.Insert
  rw [hget]
  simp only [merge_three, Table.appendToAddendum, isBeforePiece, isAfterPiece,
    isMiddleOfPiece, beq_iff_eq, Bool.and_eq_true, decide_eq_true_eq]
  rw [hps, hk, take_length_append, drop_length_succ_append]
  split_ifs <;> rfl

theorem getElem?_length_append {α : Type} (pre : List α) (p : α) (post : List α) :
    (pre ++ p :: post)[pre.length]? = some p := by
  induction pre with
  | nil => simp
  | cons a rest ih => simpa using ih

/-! ## Frame, index resolution and boundary classification -/

/-- C12: every mutating operation leaves the original buffer as it is;
`Append(s)` and `Insert(s, index)` turn the addendum into the old addendum
followed by `s`, so the old addendum is a prefix of the new one;
`DeleteChar` and `Delete` leave the addendum as it is. -/
theorem buffers_frame (table : Table) (s : String) (index startIndex length : Int) :
    ((table.Append s).original = table.original ∧
      (table.Append s).addendum = table.addendum ++ s ∧
      table.addendum.data <+: (table.Append s).addendum.data) ∧
    ((table.Insert s index).original = table.original ∧
      (table.Insert s index).addendum = table.addendum ++ s ∧
      table.addendum.data <+: (table.Insert s index).addendum.data) ∧
    ((table.DeleteChar index).original = table.original ∧
      (table.DeleteChar index).addendum = table.addendum) ∧
    ((table.Delete startIndex length).original = table.original ∧
      (table.Delete startIndex length).addendum = table.addendum) := by
  obtain ⟨hi1, hi2⟩ := Insert_buffers table s index
  refine ⟨⟨rfl, rfl, ?_⟩, ⟨hi1, hi2, ?_⟩, DeleteChar_buffers table index,
    DeleteLoop_buffers startIndex _ table⟩
  · rw [Append_eq, String.data_append]
    exact List.prefix_append _ _
  · rw [hi2, String.data_append]
    exact List.prefix_append _ _

/-- C14: with non-negative piece lengths and `0 ≤ i`, `getPieceAtIndex(i)` is
`nil` exactly when `i` is at or past the sum of the piece lengths; a piece
it returns is the piece at position `pieceNumber`, `from` is the sum of the
lengths of the pieces before it, `from ≤ i < from + length`, and no earlier
position has a piece whose range contains `i`. -/
theorem getPieceAtIndex_spec (table : Table) (i : Int)
    (hnn : ∀ p ∈ table.pieces, 0 ≤ p.length) (h0 : 0 ≤ i) :
    (table.getPieceAtIndex i = none ↔ table.documentLength ≤ i) ∧
    ∀ r : relativePiece, table.getPieceAtIndex i = some r →
      table.pieces[r.pieceNumber]? = some r.piece ∧
      r.from_ = sumLengths (table.pieces.take r.pieceNumber) ∧
      r.from_ ≤ i ∧ i < r.from_ + r.piece.length ∧
      ∀ (j : Nat) (q : piece), j < r.pieceNumber → table.pieces[j]? = some q →
        ¬ (sumLengths (table.pieces.take j) ≤ i ∧
            i < sumLengths (table.pieces.take j) + q.length) := by
  constructor
  · constructor
    · intro hnone
      by_contra hlt
      obtain ⟨pre, post, p, -, hget, -, -⟩ :=
        getPieceAtIndexLoop_some i table.pieces 0 0 hnn h0
          (by simp only [Table.documentLength] at hlt; simp only [sumLengths]; omega)
      unfold Table.getPieceAtIndex at hnone
      rw [hget] at hnone
      exact Option.noConfusion hnone
    · intro hle
      exact getPieceAtIndexLoop_none i _ 0 0 hnn
        (by simp only [Table.documentLength] at hle; simp only [sumLengths]; omega)
  · intro r hget
    have hle := getPieceAtIndex_from_le table i r hnn h0 hget
    obtain ⟨pre, post, hps, hk, hfrom, hlt⟩ := getPieceAtIndexLoop_shape i _ 0 0 r hget
    rw [Nat.zero_add] at hk
    rw [Int.zero_add] at hfrom
    refine ⟨?_, ?_, hle, hlt, ?_⟩
    · rw [hps, hk]
      exact getElem?_length_append pre r.piece post
    · rw [hps, hk, take_length_append]
      exact hfrom
    · intro j q hj hq hcontra
      rw [hk] at hj
      rw [hps] at hq hcontra
      have hjq : pre[j]? = some q := by
        rw [List.getElem?_append_left hj] at hq
        exact hq
      have htake : (pre ++ r.piece :: post).take j = pre.take j :=
        List.take_append_of_le_length (by omega)
      rw [htake] at hcontra
      have hsplit : pre = pre.take j ++ q :: pre.drop (j + 1) := by
        have hq2 : pre[j] = q := by
          rw [List.getElem?_eq_getElem hj] at hjq
          exact Option.some.inj hjq
        rw [← hq2, ← List.drop_eq_getElem_cons hj, List.take_append_drop]
      have hrest : 0 ≤ sumLengths (pre.drop (j + 1)) :=
        sumLengths_nonneg _ (fun x hx => hnn x (by
          rw [hps]
          exact List.mem_append_left _ (List.mem_of_mem_drop hx)))
      have hsum : sumLengths pre =
          sumLengths (pre.take j) + (q.length + sumLengths (pre.drop (j + 1))) := by
        conv_lhs => rw [hsplit]
        rw [sumLengths_append, sumLengths_cons]
      omega

/-- C14, on the pieces of `"abc"` followed by `" xyz"`, at offset 4. -/
theorem getPieceAtIndex_spec_witness :
    ((NewTable "abc").Append " xyz").getPieceAtIndex 4 =
        some (newRelativePiece 3 1 (newPiece 0 4 addendumType)) ∧
      (((NewTable "abc").Append " xyz").getPieceAtIndex 7 = none ↔
        ((NewTable "abc").Append " xyz").documentLength ≤ 7) :=
  ⟨by decide,
    (getPieceAtIndex_spec ((NewTable "abc").Append " xyz") 7 (by decide) (by decide)).1⟩

/-- C16: when the offset, non-negative or not, resolves to a piece of length 1
at position `pieceNumber`, `DeleteChar` removes exactly that piece: the
pieces before and after it stay, in order; the buffers are unchanged. -/
theorem DeleteChar_removes_unit_piece (table : Table) (index : Int) (r : relativePiece)
    (hget : table.getPieceAtIndex index = some r) (hlen : r.piece.length = 1) :
    table.pieces[r.pieceNumber]? = some r.piece ∧
    (table.DeleteChar index).pieces =
      table.pieces.take r.pieceNumber ++ table.pieces.drop (r.pieceNumber + 1) ∧
    (table.DeleteChar index).pieces = table.pieces.eraseIdx r.pieceNumber ∧
    (table.DeleteChar index).original = table.original ∧
    (table.DeleteChar index).addendum = table.addendum := by
  obtain ⟨pre, post, hps, hk, -, -⟩ := getPieceAtIndexLoop_shape index _ 0 0 r hget
  rw [Nat.zero_add] at hk
  obtain ⟨hb1, hb2⟩ := DeleteChar_buffers table index
  have hp := DeleteChar_pieces_of_get table index r pre post hget hps hk
  rw [if_pos hlen] at hp
  refine ⟨?_, ?_, ?_, hb1, hb2⟩
  · rw [hps, hk]
    exact getElem?_length_append pre r.piece post
  · rw [hp, hps, hk, take_length_append, drop_length_succ_append]
  · rw [hp, hps, hk, List.eraseIdx_append_of_length_le (Nat.le_refl _)]
    simp

/-- C16, at the second deletion of the test `TestDeletesOneCharInItsOwnPiece`. -/
theorem DeleteChar_removes_unit_piece_witness :
    (((NewTable "abc").DeleteChar 1).DeleteChar 1).pieces = [newPiece 0 1 originalType] := by
  have h := (DeleteChar_removes_unit_piece ((NewTable "abc").DeleteChar 1) 1
    (newRelativePiece 1 1 (newPiece 2 1 originalType)) (by decide) (by decide)).2.1
  rw [h]
  decide

/-- C19: on a table with at least one piece, all of non-negative length, and
for a negative `index`, `Insert(s, index)` drops the first piece and puts no
piece in for `s`: the piece sequence becomes the old one without its first
element, while `s` is appended to the addendum. -/
theorem Insert_negative_index (table : Table) (s : String) (index : Int) (p : piece)
    (rest : List piece) (hps : table.pieces = p :: rest)
    (hnn : ∀ q ∈ table.pieces, 0 ≤ q.length) (hneg : index < 0) :
    table.Insert s index =
      { original := table.original, addendum := table.addendum ++ s, pieces := rest } := by
  have hp : 0 ≤ p.length := hnn p (by rw [hps]; exact List.mem_cons_self _ _)
  have hget : table.getPieceAtIndex index = some (newRelativePiece 0 0 p) := by
    unfold Table.getPieceAtIndex
    rw [hps]
    unfold Table.getPieceAtIndexLoop
    simp only []
    rw [if_pos (by omega)]
    simp [newRelativePiece]
  have hpieces := Insert_pieces_of_get table s index (newRelativePiece 0 0 p) [] rest hget
    (by rw [hps]; rfl) rfl
  obtain ⟨hb1, hb2⟩ := Insert_buffers table s index
  simp only [newRelativePiece, List.nil_append] at hpieces
  rw [if_neg (by omega), if_neg (by omega), if_neg (by omega)] at hpieces
  simp only [List.nil_append] at hpieces
  cases hI : table.Insert s index with
  | mk o a ps =>
    rw [hI] at hb1 hb2 hpieces
    simp only [] at hb1 hb2 hpieces
    rw [hb1, hb2, hpieces]

/-- C19, on `"abc"` followed by `"def"`, with `Insert("x", -1)`. -/
theorem Insert_negative_index_witness :
    ((NewTable "abc").Append "def").Insert "x" (-1) =
      { original := "abc", addendum := "defx", pieces := [newPiece 0 3 addendumType] } :=
  Insert_negative_index ((NewTable "abc").Append "def") "x" (-1) (newPiece 0 3 originalType)
    [newPiece 0 3 addendumType] (by decide) (by decide) (by decide)

/-! ## Properties carried by every piece through `Insert` and `DeleteChar` -/

theorem len_pos_of_ne_empty {s : String} (hs : s ≠ "") : 0 < len s := by
  unfold len
  cases s with
  | mk data =>
    cases data with
    | nil => exact absurd rfl hs
    | cons c cs =>
      rw [String.utf8ByteSize_mk, String.utf8Len_cons]
      have := Char.utf8Size_pos c
      omega

/-- A property that the new piece has and that the parts of a split keep is
had by every piece after `Insert`, whatever the offset. -/
theorem Insert_pieces_forall (table : Table) (s : String) (index : Int)
    (P Q : piece → Prop) (hPQ : ∀ q, P q → Q q) (hadd : Q (table.newAddendumPiece s))
    (hsplit : ∀ (q : piece) (d : Int), P q → 0 < d → d < q.length →
      Q (newPiece q.start d q.buffer) ∧
        Q (newPiece (q.start + d) (q.length - d) q.buffer))
    (h : ∀ p ∈ table.pieces, P p) :
    ∀ p ∈ (table.Insert s index).pieces, Q p := by
  cases hget : table.getPieceAtIndex index with
  | none =>
    have heq : table.Insert s index = table.Append s := by
      unfold Table.Insert
      rw [hget]
    rw [heq]
    intro q hq
    rw [Append_eq] at hq
    simp only [List.mem_append, List.mem_singleton] at hq
    rcases hq with hq | hq
    · exact hPQ q (h q hq)
    · rw [hq]
      exact hadd
  | some r =>
    obtain ⟨pre, post, hps, hk, -, -⟩ := getPieceAtIndexLoop_shape index _ 0 0 r hget
    rw [Nat.zero_add] at hk
    have hp : P r.piece :=
      h _ (by rw [hps]; exact List.mem_append_right _ (List.mem_cons_self _ _))
    have hpre : ∀ q ∈ pre, P q :=
      fun q hq => h q (by rw [hps]; exact List.mem_append_left _ hq)
    have hpost : ∀ q ∈ post, P q :=
      fun q hq => h q (by rw [hps]; exact List.mem_append_right _ (List.mem_cons_of_mem _ hq))
    intro q hq
    rw [Insert_pieces_of_get table s index r pre post hget hps hk] at hq
    simp only [List.mem_append] at hq
    rcases hq with (hq | (hq | hq) | hq) | hq
    · exact hPQ q (hpre q hq)
    · split_ifs at hq
      · simp only [List.mem_cons, List.mem_singleton, List.not_mem_nil, or_false] at hq
        rcases hq with hq | hq
        · rw [hq]; exact hadd
        · rw [hq]; exact hPQ _ hp
      · simp at hq
    · split_ifs at hq
      · simp only [List.mem_cons, List.mem_singleton, List.not_mem_nil, or_false] at hq
        rcases hq with hq | hq
        · rw [hq]; exact hPQ _ hp
        · rw [hq]; exact hadd
      · simp at hq
    · split_ifs at hq with hm
      · have hs2 := hsplit r.piece (index - r.from_) hp (by omega) (by omega)
        simp only [List.mem_cons, List.mem_singleton, List.not_mem_nil, or_false] at hq
        rcases hq with hq | hq | hq
        · rw [hq]; exact hs2.1
        · rw [hq]; exact hadd
        · rw [hq]; exact hs2.2
      · simp at hq
    · exact hPQ q (hpost q hq)

/-- A property that shrinking from the front and the parts of the interior
split keep is had by every piece after `DeleteChar`, whatever the offset. -/
theorem DeleteChar_pieces_forall (table : Table) (index : Int) (P : piece → Prop)
    (hfront : ∀ q : piece, P q → 0 < q.length →
      P { start := q.start + 1, length := q.length - 1, buffer := q.buffer })
    (hsplit : ∀ (q : piece) (d : Int), P q → 0 < d → d < q.length →
      P { start := q.start, length := d + 1 - 1, buffer := q.buffer } ∧
        P { start := q.start + (d + 1), length := q.length - (d + 1), buffer := q.buffer })
    (h : ∀ p ∈ table.pieces, P p) :
    ∀ p ∈ (table.DeleteChar index).pieces, P p := by
  cases hget : table.getPieceAtIndex index with
  | none =>
    have heq : table.DeleteChar index = table := by
      unfold Table.DeleteChar
      rw [hget]
    rw [heq]
    exact h
  | some r =>
    obtain ⟨pre, post, hps, hk, -, hlt⟩ := getPieceAtIndexLoop_shape index _ 0 0 r hget
    rw [Nat.zero_add] at hk
    have hp : P r.piece :=
      h _ (by rw [hps]; exact List.mem_append_right _ (List.mem_cons_self _ _))
    have hpre : ∀ q ∈ pre, P q :=
      fun q hq => h q (by rw [hps]; exact List.mem_append_left _ hq)
    have hpost : ∀ q ∈ post, P q :=
      fun q hq => h q (by rw [hps]; exact List.mem_append_right _ (List.mem_cons_of_mem _ hq))
    intro q hq
    rw [DeleteChar_pieces_of_get table index r pre post hget hps hk] at hq
    split_ifs at hq with h1 h2 h3 h4
    · rcases List.mem_append.mp hq with hq | hq
      · exact hpre q hq
      · exact hpost q hq
    · simp only [List.mem_append, List.mem_cons] at hq
      rcases hq with hq | hq | hq
      · exact hpre q hq
      · rw [hq]
        exact hfront _ hp (by omega)
      · exact hpost q hq
    · omega
    · have hs2 := hsplit r.piece (index - r.from_) hp (by omega) (by omega)
      simp only [List.mem_append, List.mem_cons, List.mem_singleton, List.not_mem_nil,
        or_false] at hq
      rcases hq with (hq | hq) | hq
      · rw [hq]; exact hs2.1
      · rw [hq]; exact hs2.2
      · exact hpost q hq
    · rw [← hps] at hq
      exact h q hq

theorem DeleteLoop_pieces_forall (startIndex : Int) (P : piece → Prop)
    (hfront : ∀ q : piece, P q → 0 < q.length →
      P { start := q.start + 1, length := q.length - 1, buffer := q.buffer })
    (hsplit : ∀ (q : piece) (d : Int), P q → 0 < d → d < q.length →
      P { start := q.start, length := d + 1 - 1, buffer := q.buffer } ∧
        P { start := q.start + (d + 1), length := q.length - (d + 1), buffer := q.buffer }) :
    ∀ (n : Nat) (table : Table), (∀ p ∈ table.pieces, P p) →
      ∀ p ∈ (Table.DeleteLoop startIndex n table).pieces, P p := by
  intro n
  induction n with
  | zero => intro table h; exact h
  | succ n ih =>
    intro table h
    unfold Table.DeleteLoop
    exact ih _ (DeleteChar_pieces_forall table startIndex P hfront hsplit h)

/-! ## Classification, positive lengths, empty text and buffer bounds -/

/-- C17: with non-negative piece lengths and `0 ≤ index`, for the piece `r`
that `getPieceAtIndex(index)` returns, `isAfterPiece` is false (so the at-end
branches of `Insert` and `DeleteChar` are not taken) and exactly one of
`isBeforePiece`, `isMiddleOfPiece` is true; when `index` is the last
character of a piece of length at least 2, `isMiddleOfPiece` holds and
`DeleteChar` leaves what its interior branch builds: the piece shortened by
one, an empty after-part, and the pieces after `r`. -/
theorem classification_of_resolved_piece (table : Table) (index : Int) (r : relativePiece)
    (hnn : ∀ p ∈ table.pieces, 0 ≤ p.length) (h0 : 0 ≤ index)
    (hget : table.getPieceAtIndex index = some r) :
    isAfterPiece index r = false ∧
    ((isBeforePiece index r = true ∧ isMiddleOfPiece index r = false) ∨
      (isBeforePiece index r = false ∧ isMiddleOfPiece index r = true)) ∧
    (2 ≤ r.piece.length → index = r.from_ + r.piece.length - 1 →
      isBeforePiece index r = false ∧ isMiddleOfPiece index r = true ∧
      (table.DeleteChar index).pieces =
        [{ start := r.piece.start, length := r.piece.length - 1, buffer := r.piece.buffer },
         { start := r.piece.start + r.piece.length, length := 0, buffer := r.piece.buffer }] ++
          table.pieces.drop (r.pieceNumber + 1)) := by
  have hle := getPieceAtIndex_from_le table index r hnn h0 hget
  obtain ⟨pre, post, hps, hk, -, hlt⟩ := getPieceAtIndexLoop_shape index _ 0 0 r hget
  rw [Nat.zero_add] at hk
  refine ⟨?_, ?_, ?_⟩
  · simp only [isAfterPiece, beq_eq_false_iff_ne, ne_eq]
    omega
  · by_cases hb : index = r.from_
    · left
      simp only [isBeforePiece, isMiddleOfPiece, beq_iff_eq, Bool.and_eq_false_imp,
        decide_eq_true_eq, decide_eq_false_iff_not]
      exact ⟨hb, fun hgt => by omega⟩
    · right
      simp only [isBeforePiece, isMiddleOfPiece, beq_eq_false_iff_ne, ne_eq,
        Bool.and_eq_true, decide_eq_true_eq]
      exact ⟨hb, by omega, hlt⟩
  · intro h2 hlast
    refine ⟨?_, ?_, ?_⟩
    · simp only [isBeforePiece, beq_eq_false_iff_ne, ne_eq]
      omega
    · simp only [isMiddleOfPiece, Bool.and_eq_true, decide_eq_true_eq]
      omega
    · rw [DeleteChar_pieces_of_get table index r pre post hget hps hk,
        if_neg (by omega), if_neg (by omega), if_neg (by omega), if_pos (by omega),
        hps, hk, drop_length_succ_append]
      have e1 : index - r.from_ + 1 - 1 = r.piece.length - 1 := by omega
      have e2 : index - r.from_ + 1 = r.piece.length := by omega
      have e3 : r.piece.length - r.piece.length = 0 := by omega
      rw [e1, e2, e3]

/-- C17, at the deletion of the last character of `"abc"`. -/
theorem classification_of_resolved_piece_witness :
    isAfterPiece 2 (newRelativePiece 0 0 (newPiece 0 3 originalType)) = false ∧
      isMiddleOfPiece 2 (newRelativePiece 0 0 (newPiece 0 3 originalType)) = true ∧
      ((NewTable "abc").DeleteChar 2).pieces =
        [newPiece 0 2 originalType, newPiece 3 0 originalType] := by
  obtain ⟨h1, -, h3⟩ := classification_of_resolved_piece (NewTable "abc") 2
    (newRelativePiece 0 0 (newPiece 0 3 originalType)) (by decide) (by decide) (by decide)
  obtain ⟨-, h4, h5⟩ := h3 (by decide) (by decide)
  exact ⟨h1, h4, h5⟩

/-- C15: on a table whose pieces all have positive length, for non-empty `s`
and `0 ≤ index`, every piece after `Insert(s, index)` has positive length;
in the interior case the piece is replaced by a before-part, the new piece
and an after-part, the two parts being non-empty, of the buffer of the
split piece, adjacent, and of lengths that sum to its length. -/
theorem Insert_pieces_positive (table : Table) (s : String) (index : Int)
    (hpos : ∀ p ∈ table.pieces, 0 < p.length) (hs : s ≠ "") (h0 : 0 ≤ index) :
    (∀ p ∈ (table.Insert s index).pieces, 0 < p.length) ∧
    ∀ r : relativePiece, table.getPieceAtIndex index = some r →
      isMiddleOfPiece index r = true →
      ∃ beforePiece afterPiece : piece,
        (table.Insert s index).pieces =
          table.pieces.take r.pieceNumber ++
            [beforePiece, table.newAddendumPiece s, afterPiece] ++
            table.pieces.drop (r.pieceNumber + 1) ∧
        0 < beforePiece.length ∧ 0 < afterPiece.length ∧
        beforePiece.buffer = r.piece.buffer ∧ afterPiece.buffer = r.piece.buffer ∧
        beforePiece.start = r.piece.start ∧
        afterPiece.start = r.piece.start + beforePiece.length ∧
        beforePiece.length + afterPiece.length = r.piece.length := by
  have hnn : ∀ p ∈ table.pieces, 0 ≤ p.length := fun p hp => le_of_lt (hpos p hp)
  constructor
  · apply Insert_pieces_forall table s index (fun p => 0 < p.length) (fun p => 0 < p.length)
      (fun _ hq => hq) (len_pos_of_ne_empty hs) ?_ hpos
    intro q d _ hd0 hd1
    simp only [newPiece]
    omega
  · intro r hget hm
    have hle := getPieceAtIndex_from_le table index r hnn h0 hget
    obtain ⟨pre, post, hps, hk, -, hlt⟩ := getPieceAtIndexLoop_shape index _ 0 0 r hget
    rw [Nat.zero_add] at hk
    simp only [isMiddleOfPiece, Bool.and_eq_true, decide_eq_true_eq] at hm
    refine ⟨newPiece r.piece.start (index - r.from_) r.piece.buffer,
      newPiece (r.piece.start + (index - r.from_)) (r.piece.length - (index - r.from_))
        r.piece.buffer, ?_, ?_, ?_, rfl, rfl, rfl, rfl, ?_⟩
    · rw [Insert_pieces_of_get table s index r pre post hget hps hk,
        if_neg (by omega), if_neg (by omega), if_pos hm, hps, hk, take_length_append,
        drop_length_succ_append]
      simp
    · simp only [newPiece]; omega
    · simp only [newPiece]; omega
    · simp only [newPiece]; omega

/-- C15, at the interior insertion of the test suite. -/
theorem Insert_pieces_positive_witness :
    ((NewTable "abc def").Insert "xyz " 4).pieces =
        [newPiece 0 4 originalType, newPiece 0 4 addendumType, newPiece 4 3 originalType] ∧
      0 < (newPiece 0 4 originalType).length ∧ 0 < (newPiece 0 4 addendumType).length ∧
      0 < (newPiece 4 3 originalType).length :=
  ⟨by decide,
    (Insert_pieces_positive (NewTable "abc def") "xyz " 4 (by decide) (by decide)
      (by decide)).1 _ (by decide),
    (Insert_pieces_positive (NewTable "abc def") "xyz " 4 (by decide) (by decide)
      (by decide)).1 _ (by decide),
    (Insert_pieces_positive (NewTable "abc def") "xyz " 4 (by decide) (by decide)
      (by decide)).1 _ (by decide)⟩

/-- C11 (fails on the code): on `"abc"`, whose one piece has positive length,
`Append("")` and `Insert("", 1)` each leave a piece of length 0 in the
sequence that was not there before. -/
theorem empty_text_adds_empty_piece :
    (∀ p ∈ (NewTable "abc").pieces, 0 < p.length) ∧
    ((NewTable "abc").Append "").pieces =
      [newPiece 0 3 originalType, newPiece 0 0 addendumType] ∧
    ((NewTable "abc").Insert "" 1).pieces =
      [newPiece 0 1 originalType, newPiece 0 0 addendumType, newPiece 1 2 originalType] ∧
    ¬ (∀ p ∈ ((NewTable "abc").Append "").pieces, 0 < p.length) ∧
    ¬ (∀ p ∈ ((NewTable "abc").Insert "" 1).pieces, 0 < p.length) := by
  decide

/-- Empty text: on a table whose pieces lie inside their single-byte
buffers, `Append("")` and `Insert("", index)` with `0 ≤ index` leave both
buffers and the result of `ToString()` as they are, and put the empty piece
`(len(addendum), 0, addendum)` into the sequence; when all pieces had
positive length, every piece afterwards has positive length or is that
empty piece. -/
theorem empty_text_keeps_text (spare : List Char → List Char) (table : Table) (index : Int)
    (hin : table.piecesInBuffers) (hsb : table.singleByte) (h0 : 0 ≤ index) :
    ((table.Append "").original = table.original ∧
      (table.Append "").addendum = table.addendum ∧
      (table.Append "").ToString spare = table.ToString spare ∧
      (table.Append "").pieces =
        table.pieces ++ [newPiece (len table.addendum) 0 addendumType]) ∧
    ((table.Insert "" index).original = table.original ∧
      (table.Insert "" index).addendum = table.addendum ∧
      (table.Insert "" index).ToString spare = table.ToString spare ∧
      newPiece (len table.addendum) 0 addendumType ∈ (table.Insert "" index).pieces ∧
      ((∀ p ∈ table.pieces, 0 < p.length) →
        ∀ p ∈ (table.Insert "" index).pieces,
          0 < p.length ∨ p = newPiece (len table.addendum) 0 addendumType)) := by
  have hfit := fits_of_wellFormed hsb hin
  have he : isASCII "" = true := by decide
  have hT := ToString_of_fits spare table hfit
  have hApp : (table.Append "").ToString spare = table.ToString spare := by
    rw [ToString_of_fits spare _ (Append_fits hsb he hfit), Append_docRunes hsb he hfit, hT]
    congr 2
    exact List.append_nil _
  refine ⟨⟨rfl, String.append_empty _, hApp, rfl⟩, ?_⟩
  obtain ⟨hb1, hb2⟩ := Insert_buffers table "" index
  have hnn : ∀ p ∈ table.pieces, 0 ≤ p.length := fun p hp => (hfit p hp).2.1
  refine ⟨hb1, hb2.trans (String.append_empty _), ?_, ?_, ?_⟩
  · rcases le_or_lt index (sumLengths table.pieces) with hle | hgt
    · obtain ⟨hfit2, htext⟩ := Insert_text table "" index hsb he hfit h0 hle
      rw [ToString_of_fits spare _ hfit2, htext, hT]
      congr 2
      show List.take index.toNat table.docRunes ++ [] ++ List.drop index.toNat table.docRunes
        = table.docRunes
      rw [List.append_nil, List.take_append_drop]
    · rw [Insert_eq_Append table "" index hnn (by omega)]
      exact hApp
  · cases hget : table.getPieceAtIndex index with
    | none =>
      have heq : table.Insert "" index = table.Append "" := by
        unfold Table.Insert
        rw [hget]
      rw [heq, Append_eq]
      exact List.mem_append_right _ (List.mem_singleton.mpr rfl)
    | some r =>
      have hle := getPieceAtIndex_from_le table index r hnn h0 hget
      obtain ⟨pre, post, hps, hk, -, hlt⟩ := getPieceAtIndexLoop_shape index _ 0 0 r hget
      rw [Nat.zero_add] at hk
      rw [Insert_pieces_of_get table "" index r pre post hget hps hk]
      have hmem : Table.newAddendumPiece table "" = newPiece (len table.addendum) 0 addendumType :=
        rfl
      rw [hmem]
      by_cases hb : index = r.from_
      · rw [if_pos hb]
        simp
      · rw [if_neg hb, if_neg (by omega), if_pos (by omega)]
        simp
  · intro hpos
    apply Insert_pieces_forall table "" index (fun p => 0 < p.length)
      (fun p => 0 < p.length ∨ p = newPiece (len table.addendum) 0 addendumType)
      (fun _ hq => Or.inl hq) (Or.inr rfl) ?_ hpos
    intro q d _ hd0 hd1
    simp only [newPiece]
    exact ⟨Or.inl hd0, Or.inl (by omega)⟩

/-- Empty text leaves the text of `"abc"` as it is. -/
theorem empty_text_keeps_text_witness :
    ((NewTable "abc").Append "").ToString (fun _ => []) = some "abc" ∧
      ((NewTable "abc").Insert "" 1).ToString (fun _ => []) = some "abc" := by
  obtain ⟨⟨-, -, h1, -⟩, ⟨-, -, h2, -, -⟩⟩ :=
    empty_text_keeps_text (fun _ => []) (NewTable "abc") 1 (by decide) (by decide) (by decide)
  have hT : (NewTable "abc").ToString (fun _ => []) = some "abc" := by decide
  exact ⟨h1.trans hT, h2.trans hT⟩

/-! ## Buffer bounds in bytes, for any text -/

theorem inBuffer_of_buffers {table table2 : Table} {p : piece}
    (ho : table2.original = table.original)
    (ha : len table.addendum ≤ len table2.addendum) (h : table.inBuffer p) :
    table2.inBuffer p := by
  obtain ⟨h0, h1, h2⟩ := h
  refine ⟨h0, h1, ?_⟩
  cases hb : p.buffer <;> rw [hb] at h2 <;> simp only [Table.bufferOf] at h2 ⊢
  · rw [ho]; exact h2
  · omega

theorem inBuffer_split {table : Table} {q : piece} (d : Int) (h : table.inBuffer q)
    (hd0 : 0 ≤ d) (hd1 : d ≤ q.length) :
    table.inBuffer { start := q.start, length := d, buffer := q.buffer } ∧
      table.inBuffer { start := q.start + d, length := q.length - d, buffer := q.buffer } := by
  obtain ⟨h0, h1, h2⟩ := h
  unfold Table.inBuffer
  simp only []
  refine ⟨⟨h0, hd0, by omega⟩, ⟨by omega, by omega, by omega⟩⟩

theorem NewTable_piecesInBuffers (t : String) : (NewTable t).piecesInBuffers := by
  intro p hp
  rw [NewTable_pieces] at hp
  split_ifs at hp
  · simp only [List.mem_singleton] at hp
    rw [hp]
    refine ⟨le_refl _, len_nonneg t, ?_⟩
    simp only [newPiece, Table.bufferOf, NewTable]
    omega
  · simp at hp

theorem Append_piecesInBuffers (table : Table) (s : String) (h : table.piecesInBuffers) :
    (table.Append s).piecesInBuffers := by
  intro p hp
  rw [Append_eq] at hp ⊢
  simp only [List.mem_append, List.mem_singleton] at hp
  have hl := len_append table.addendum s
  have hs := len_nonneg s
  rcases hp with hp | hp
  · exact @inBuffer_of_buffers table _ p rfl (by simp only []; omega) (h p hp)
  · rw [hp]
    refine ⟨len_nonneg _, hs, ?_⟩
    simp only [newPiece, Table.bufferOf]
    omega

theorem Insert_piecesInBuffers (table : Table) (s : String) (index : Int)
    (h : table.piecesInBuffers) : (table.Insert s index).piecesInBuffers := by
  obtain ⟨hb1, hb2⟩ := Insert_buffers table s index
  have hl := len_append table.addendum s
  have hs := len_nonneg s
  have hmono : ∀ q, table.inBuffer q → (table.Insert s index).inBuffer q :=
    fun q hq => inBuffer_of_buffers hb1 (by rw [hb2]; omega) hq
  apply Insert_pieces_forall table s index table.inBuffer (table.Insert s index).inBuffer
    hmono ?_ ?_ h
  · refine ⟨len_nonneg _, hs, ?_⟩
    simp only [Table.newAddendumPiece, Table.getLengthOfAddendum, newPiece, Table.bufferOf]
    rw [hb2]
    omega
  · intro q d hq hd0 hd1
    obtain ⟨g1, g2⟩ := inBuffer_split d hq (by omega) (by omega)
    exact ⟨hmono _ g1, hmono _ g2⟩

theorem DeleteChar_piecesInBuffers (table : Table) (index : Int)
    (h : table.piecesInBuffers) : (table.DeleteChar index).piecesInBuffers := by
  obtain ⟨hb1, hb2⟩ := DeleteChar_buffers table index
  have hmono : ∀ q, table.inBuffer q → (table.DeleteChar index).inBuffer q :=
    fun q hq => inBuffer_of_buffers hb1 (by rw [hb2]) hq
  intro p hp
  apply hmono
  revert p
  apply DeleteChar_pieces_forall table index table.inBuffer ?_ ?_ h
  · intro q hq hpos
    exact (inBuffer_split 1 hq (by omega) (by omega)).2
  · intro q d hq hd0 hd1
    have e : d + 1 - 1 = d := by omega
    rw [e]
    exact ⟨(inBuffer_split d hq (by omega) (by omega)).1,
      (inBuffer_split (d + 1) hq (by omega) (by omega)).2⟩

theorem DeleteLoop_piecesInBuffers (startIndex : Int) :
    ∀ (n : Nat) (table : Table), table.piecesInBuffers →
      (Table.DeleteLoop startIndex n table).piecesInBuffers := by
  intro n
  induction n with
  | zero => intro table h; exact h
  | succ n ih =>
    intro table h
    unfold Table.DeleteLoop
    exact ih _ (DeleteChar_piecesInBuffers table startIndex h)

theorem run_piecesInBuffers_of :
    ∀ (ops : List Op) (table : Table), table.piecesInBuffers →
      (run table ops).piecesInBuffers := by
  intro ops
  induction ops with
  | nil => intro table h; exact h
  | cons op rest ih =>
    intro table h
    refine ih (Op.apply table op) ?_
    cases op with
    | append str => exact Append_piecesInBuffers table str h
    | insert str index => exact Insert_piecesInBuffers table str index h
    | deleteChar index => exact DeleteChar_piecesInBuffers table index h
    | delete startIndex length => exact DeleteLoop_piecesInBuffers startIndex _ table h

/-- C13: in every table built from `NewTable(t)` by `Append`, `Insert`,
`DeleteChar` and `Delete` calls with any arguments, every piece has
`0 ≤ start`, `0 ≤ length` and `start + length ≤` the byte length of its
buffer; and when `t` and the text of every call are single-byte,
`ToString()` returns a text: no slice expression is out of range. -/
theorem run_piecesInBuffers (spare : List Char → List Char) (t : String) (ops : List Op) :
    (∀ p ∈ (run (NewTable t) ops).pieces,
      0 ≤ p.start ∧ 0 ≤ p.length ∧
        p.start + p.length ≤ len ((run (NewTable t) ops).bufferOf p.buffer)) ∧
    (isASCII t = true → (∀ op ∈ ops, op.singleByte) →
      ∃ T : String, (run (NewTable t) ops).ToString spare = some T) := by
  constructor
  · exact run_piecesInBuffers_of ops (NewTable t) (NewTable_piecesInBuffers t)
  · intro ht hops
    obtain ⟨-, hfit⟩ :=
      run_wellFormed ops (NewTable t) hops (NewTable_singleByte ht) (NewTable_fits ht)
    exact ⟨_, ToString_of_fits spare _ hfit⟩

/-- C13, on a multi-byte text with a negative offset, and on the range
deletion of the test suite. -/
theorem run_piecesInBuffers_witness :
    (run (NewTable "é") [Op.insert "ü" (-1), Op.deleteChar 0]).piecesInBuffers ∧
      ∃ T : String,
        (run (NewTable "abc") [Op.insert " xyz" 3, Op.delete 1 5]).ToString (fun _ => []) =
          some T :=
  ⟨(run_piecesInBuffers (fun _ => []) "é" [Op.insert "ü" (-1), Op.deleteChar 0]).1,
    (run_piecesInBuffers (fun _ => []) "abc" [Op.insert " xyz" 3, Op.delete 1 5]).2
      (by decide) (by decide)⟩

/-! ## Range deletion on a table that has not been edited -/

theorem docRunes_eq (table : Table) :
    table.docRunes = (table.pieces.map (runesOf table.original table.addendum)).flatten := rfl

theorem take_drop_succ_step {α : Type} (T : List α) (i n : Nat) :
    (T.take i ++ T.drop (i + 1)).take i ++ (T.take i ++ T.drop (i + 1)).drop (i + n) =
      T.take i ++ T.drop (i + (n + 1)) := by
  rcases Nat.lt_or_ge T.length i with hlt | hge
  · rw [List.take_of_length_le (Nat.le_of_lt hlt), List.drop_of_length_le (by omega),
      List.append_nil, List.take_of_length_le (Nat.le_of_lt hlt),
      List.drop_of_length_le (by omega), List.drop_of_length_le (by omega)]
  · have hlen : (T.take i).length = i := by
      rw [List.length_take]; omega
    have h1 : (T.take i ++ T.drop (i + 1)).take i = T.take i := by
      rw [List.take_append_of_le_length (by omega), List.take_take, Nat.min_self]
    have h2 : (T.take i ++ T.drop (i + 1)).drop (i + n) = T.drop (i + (n + 1)) := by
      conv_lhs => rw [← hlen]
      rw [hlen, show i + n = (T.take i).length + n by omega, List.drop_append, List.drop_drop]
      congr 1
      omega
    rw [h1, h2]

/-- One `DeleteChar` at an offset that is a piece boundary, or on a table of
at most one piece, removes the character at that offset (none when the
offset is past the end) and leaves the offset a piece boundary. -/
theorem DeleteChar_step_text (table : Table) (index : Int)
    (hfit : ∀ p ∈ table.pieces, fits table.original table.addendum p) (h0 : 0 ≤ index)
    (H : (∃ pre0 post0, table.pieces = pre0 ++ post0 ∧ sumLengths pre0 = index) ∨
      table.pieces.length ≤ 1) :
    ((∃ pre1 post1, (table.DeleteChar index).pieces = pre1 ++ post1 ∧
        sumLengths pre1 = index) ∨ (table.DeleteChar index).pieces.length ≤ 1) ∧
    (table.DeleteChar index).docRunes =
      table.docRunes.take index.toNat ++ table.docRunes.drop (index.toNat + 1) := by
  have hnn : ∀ p ∈ table.pieces, 0 ≤ p.length := fun p hp => (hfit p hp).2.1
  rcases lt_or_ge index (sumLengths table.pieces) with hlt | hge
  · obtain ⟨pre, post, p, hps, hlo, hhi, heq⟩ := DeleteChar_eq_inside table index hnn h0 hlt
    have hpre : ∀ q ∈ pre, fits table.original table.addendum q :=
      fun q hq => hfit q (by rw [hps]; exact List.mem_append_left _ hq)
    have hp : fits table.original table.addendum p :=
      hfit p (by rw [hps]; exact List.mem_append_right _ (List.mem_cons_self _ _))
    have hlenA := length_runesOfAll pre hpre
    have hlenP := length_runesOf hp
    have hsp := sumLengths_nonneg pre (fun q hq => (hpre q hq).2.1)
    have hT := docRunes_split table pre post p hps
    have K : index ≠ sumLengths pre → pre = [] ∧ post = [] := by
      intro hne
      rcases H with ⟨pre0, post0, hsplit, hsum⟩ | hone
      · exfalso
        apply hne
        rw [hps] at hsplit
        rcases List.append_eq_append_iff.mp hsplit with ⟨a, ha1, ha2⟩ | ⟨c, hc1, hc2⟩
        · cases a with
          | nil =>
            rw [List.append_nil] at ha1
            rw [← ha1, hsum]
          | cons x rest =>
            exfalso
            simp only [List.cons_append, List.cons.injEq] at ha2
            have hrest : 0 ≤ sumLengths rest := sumLengths_nonneg rest (fun q hq => hnn q (by
              rw [hps, ha2.2]
              exact List.mem_append_right _
                (List.mem_cons_of_mem _ (List.mem_append_left _ hq))))
            rw [ha1, sumLengths_append, sumLengths_cons, ← ha2.1] at hsum
            omega
        · have hc : 0 ≤ sumLengths c := sumLengths_nonneg c (fun q hq => hnn q (by
            rw [hps, hc1]
            exact List.mem_append_left _ (List.mem_append_right _ hq)))
          have : sumLengths pre = sumLengths pre0 + sumLengths c := by
            rw [hc1, sumLengths_append]
          omega
      · rw [hps] at hone
        simp only [List.length_append, List.length_cons] at hone
        exact ⟨List.length_eq_zero.mp (by omega), List.length_eq_zero.mp (by omega)⟩
    rw [heq]
    simp only [Table.docRunes]
    rw [← docRunes_eq, hT]
    have hidx : index.toNat =
        ((pre.map (runesOf table.original table.addendum)).flatten).length +
          (index - sumLengths pre).toNat := by omega
    by_cases hb : index = sumLengths pre
    · have hz : (index - sumLengths pre).toNat = 0 := by omega
      rw [hz, Nat.add_zero] at hidx
      have hP1 : 1 ≤ (runesOf table.original table.addendum p).length := by omega
      rw [hidx, ← Nat.add_zero ((pre.map (runesOf table.original table.addendum)).flatten).length,
        take_mid _ _ _ 0 (Nat.zero_le _), Nat.add_zero, drop_mid _ _ _ 1 hP1, List.take_zero,
        List.append_nil]
      constructor
      · left
        by_cases hl : p.length = 1
        · exact ⟨pre, post, by rw [if_pos hl], hb.symm⟩
        · exact ⟨pre, _, by rw [if_neg hl, if_pos hb], hb.symm⟩
      · by_cases hl : p.length = 1
        · rw [if_pos hl]
          have hd : (runesOf table.original table.addendum p).drop 1 = [] :=
            List.drop_of_length_le (by omega)
          rw [hd]
          simp
        · rw [if_neg hl, if_pos hb]
          have hsplit := @runesOf_split_after table.original table.addendum p 1 hp.1
            (by omega)
          simp only [newPiece] at hsplit
          simp only [List.map_append, List.map_cons, List.flatten_append, List.flatten_cons]
          rw [hsplit]
          rfl
    · obtain ⟨hpre0, hpost0⟩ := K hb
      subst hpre0 hpost0
      rw [sumLengths_nil] at hb hlo hhi
      have hl : ¬ p.length = 1 := by omega
      rw [if_neg hl, if_neg (by rw [sumLengths_nil]; exact hb)]
      have e1 : index - sumLengths [] + 1 - 1 = index := by rw [sumLengths_nil]; omega
      have e2 : index - sumLengths [] + 1 = index + 1 := by rw [sumLengths_nil]; omega
      rw [e1, e2]
      have hb1 := @runesOf_split_before table.original table.addendum p index (by omega)
      have hb2 := @runesOf_split_after table.original table.addendum p (index + 1) hp.1
        (by omega)
      simp only [newPiece] at hb1 hb2
      constructor
      · left
        exact ⟨[{ start := p.start, length := index, buffer := p.buffer }], _, rfl,
          by simp [sumLengths]⟩
      · simp only [newPiece, List.map_cons, List.map_nil, List.flatten_cons, List.flatten_nil,
          List.append_nil, List.nil_append]
        rw [hb1, hb2]
        congr 2
        omega
  · rw [DeleteChar_eq_outside table index hnn hge]
    refine ⟨H, ?_⟩
    have hlen := length_runesOfAll table.pieces hfit
    have hT : table.docRunes.length ≤ index.toNat := by
      unfold Table.docRunes
      omega
    rw [List.take_of_length_le hT, List.drop_of_length_le (by omega), List.append_nil]

theorem DeleteLoop_text (index : Int) (h0 : 0 ≤ index) :
    ∀ (n : Nat) (table : Table),
      (∀ p ∈ table.pieces, fits table.original table.addendum p) →
      ((∃ pre0 post0, table.pieces = pre0 ++ post0 ∧ sumLengths pre0 = index) ∨
        table.pieces.length ≤ 1) →
      (Table.DeleteLoop index n table).docRunes =
        table.docRunes.take index.toNat ++ table.docRunes.drop (index.toNat + n) := by
  intro n
  induction n with
  | zero =>
    intro table _ _
    unfold Table.DeleteLoop
    rw [Nat.add_zero, List.take_append_drop]
  | succ n ih =>
    intro table hfit H
    obtain ⟨H1, htext⟩ := DeleteChar_step_text table index hfit h0 H
    unfold Table.DeleteLoop
    rw [ih _ (DeleteChar_fits table index hfit) H1, htext, take_drop_succ_step]

theorem NewTable_docRunes {t : String} (ht : isASCII t = true) :
    (NewTable t).docRunes = t.data := by
  have hlen := len_of_isASCII ht
  rw [docRunes_eq, NewTable_pieces]
  split_ifs with h
  · simp only [List.map_cons, List.map_nil, List.flatten_cons, List.flatten_nil,
      List.append_nil, runesOf, window, newPiece, NewTable]
    have e : (0 : Int).toNat = 0 := rfl
    rw [e, List.drop_zero]
    exact List.take_of_length_le (by omega)
  · have h2 : t.data.length = 0 := by omega
    rw [List.length_eq_zero.mp h2]
    rfl

theorem NewTable_length_le_one (t : String) : (NewTable t).pieces.length ≤ 1 := by
  rw [NewTable_pieces]
  split_ifs <;> simp

/-- C18: for single-byte `t` of length `L`, `0 ≤ startIndex` and any integer
`length`, `NewTable(t).Delete(startIndex, length).ToString()` is
`t[:min(startIndex, L)] ++ t[min(startIndex + max(length, 0), L):]`. -/
theorem NewTable_Delete_ToString (spare : List Char → List Char) (t : String)
    (startIndex length : Int) (ht : isASCII t = true) (h0 : 0 ≤ startIndex) :
    ((NewTable t).Delete startIndex length).ToString spare =
      some (strTake t (min startIndex (len t)) ++
        strDrop t (min (startIndex + max length 0) (len t))) := by
  have hlen := len_of_isASCII ht
  have hfit := NewTable_fits ht
  obtain ⟨-, hfit2⟩ := DeleteLoop_wellFormed startIndex length.toNat (NewTable t)
    (NewTable_singleByte ht) hfit
  unfold Table.Delete
  rw [ToString_of_fits spare _ hfit2,
    DeleteLoop_text startIndex h0 length.toNat (NewTable t) hfit
      (Or.inr (NewTable_length_le_one t)),
    NewTable_docRunes ht]
  congr 1
  apply String.ext
  simp only [strTake, strDrop, String.data_append]
  congr 1
  · rcases Nat.lt_or_ge t.data.length startIndex.toNat with hlt | hge
    · rw [List.take_of_length_le (by omega), List.take_of_length_le (by omega)]
    · congr 1
      omega
  · rcases Nat.lt_or_ge t.data.length (startIndex.toNat + length.toNat) with hlt | hge
    · rw [List.drop_of_length_le (by omega), List.drop_of_length_le (by omega)]
    · congr 1
      omega

/-- C18, on `"abcdef"`: an interior range, a range that runs past the end,
and a negative length. -/
theorem NewTable_Delete_ToString_witness :
    ((NewTable "abcdef").Delete 1 3).ToString (fun _ => []) = some "aef" ∧
      ((NewTable "abcdef").Delete 4 10).ToString (fun _ => []) = some "abcd" ∧
      ((NewTable "abcdef").Delete 2 (-1)).ToString (fun _ => []) = some "abcdef" :=
  ⟨NewTable_Delete_ToString (fun _ => []) "abcdef" 1 3 (by decide) (by decide),
    NewTable_Delete_ToString (fun _ => []) "abcdef" 4 10 (by decide) (by decide),
    NewTable_Delete_ToString (fun _ => []) "abcdef" 2 (-1) (by decide) (by decide)⟩

end piecetable
